import Mathlib

/-!
Verification of the waitlist subscription handler (src/api/subscribe.js).

The JavaScript source is shallowly embedded here:
  * strings are `List Char` (one element per Unicode scalar value);
  * the two regular expressions of the source are embedded as backtracking
    matchers with JavaScript semantics (greedy `+`, leftmost match,
    backtracking in priority order);
  * `String.prototype.toLowerCase` is modelled on the ASCII range, which is
    the range exercised by every statement proved below;
  * the GitHub store is an environment parameter: each attempt of the retry
    loop is given either a thrown fetch, or a fetched `Option File` together
    with the success/failure of a conditional write issued during that
    attempt;
  * `new Date().toISOString().split('T')[0]` is an explicit `today` parameter.
-/

namespace Waitlist

/-- Character class of the JavaScript regex escape `\s`
(WhiteSpace plus LineTerminator productions). -/
def jsSpace (c : Char) : Bool :=
  let n := c.toNat
  n = 9 || n = 10 || n = 11 || n = 12 || n = 13 || n = 32 || n = 160 ||
  n = 5760 || (8192 ≤ n && n ≤ 8202) || n = 8232 || n = 8233 || n = 8239 ||
  n = 8287 || n = 12288 || n = 65279

/-- Character class of the JavaScript regex `.` without the `s` flag:
any character except a line terminator. -/
def jsDot (c : Char) : Bool :=
  let n := c.toNat
  !(n = 10 || n = 13 || n = 8232 || n = 8233)

/-- Character class of the JavaScript regex escape `\d`. -/
def jsDigit (c : Char) : Bool := 48 ≤ c.toNat && c.toNat ≤ 57

/-- Character class of `[^\s@]` (used by the validation regex). -/
def emailChar (c : Char) : Bool := !(jsSpace c) && !(c = '@')

/-- Characters we allow in the rendered date: anything that is not
whitespace, not an at sign, not an em-dash and not a dot.  The real
timestamps `YYYY-MM-DD` consist of digits and hyphens only. -/
def dateChar (c : Char) : Bool := emailChar c && !(c = '—') && !(c = '.')

/-- The ASCII fragment of `String.prototype.toLowerCase`. -/
def jsToLower (c : Char) : Char :=
  if 65 ≤ c.toNat ∧ c.toNat ≤ 90 then Char.ofNat (c.toNat + 32) else c

/-- Convert a Lean string literal to the character-list representation. -/
def toChars (s : String) : List Char := s.data

/-- Backtracking helper: try `f k` for `k = m, m-1, ..., 1` and return the
first result that is `some`.  This is the priority order in which a greedy
`+` quantifier offers match lengths to its continuation. -/
def tryFrom {α : Type} (f : Nat → Option α) : Nat → Option α
  | 0 => none
  | k + 1 => (f (k + 1)).orElse (fun _ => tryFrom f k)

/-- Greedy `p+` followed by continuation `f`, which receives the consumed
prefix and the remaining suffix.  Longest candidate first, with backtracking. -/
def plusMatch {α : Type} (p : Char → Bool) (l : List Char)
    (f : List Char → List Char → Option α) : Option α :=
  tryFrom (fun k => f (l.take k) (l.drop k)) (l.takeWhile p).length

/-- Match one literal character and continue. -/
def litThen {α : Type} (ch : Char) (g : List Char → Option α) :
    List Char → Option α
  | [] => none
  | c :: r => if c = ch then g r else none

/-- Embeds the suffix `\s+—\s+` of the entry regex. -/
def matchTail (l : List Char) : Option Unit :=
  plusMatch jsSpace l (fun _ r =>
    litThen '—' (fun r2 => plusMatch jsSpace r2 (fun _ _ => some ())) r)

/-- Embeds `.+` followed by `\s+—\s+`; returns the part matched by `.+`. -/
def matchC (l : List Char) : Option (List Char) :=
  plusMatch jsDot l (fun c r => (matchTail r).map (fun _ => c))

/-- Embeds `.+\..+\s+—\s+`; returns the two `.+` parts. -/
def matchB (l : List Char) : Option (List Char × List Char) :=
  plusMatch jsDot l (fun b r =>
    litThen '.' (fun r2 => (matchC r2).map (fun c => (b, c))) r)

/-- Embeds `.+@.+\..+\s+—\s+`; returns the text of the capture group
`(.+@.+\..+)`. -/
def matchA (l : List Char) : Option (List Char) :=
  plusMatch jsDot l (fun a r =>
    litThen '@' (fun r2 =>
      (matchB r2).map (fun bc => a ++ '@' :: bc.1 ++ '.' :: bc.2)) r)

/-- Embeds `line.match(/^\d+\.\s+(.+@.+\..+)\s+—\s+/)`, returning the text
of capture group 1 when the line matches. -/
def lineMatch (l : List Char) : Option (List Char) :=
  plusMatch jsDigit l (fun _ r =>
    litThen '.' (fun r2 => plusMatch jsSpace r2 (fun _ r3 => matchA r3)) r)

/-- Embeds `mdContent.split('\n')` (JavaScript split semantics: an empty
input yields one empty field, a trailing newline yields a trailing empty
field). -/
def splitOnNl : List Char → List (List Char)
  | [] => [[]]
  | c :: r =>
    if c = '\n' then [] :: splitOnNl r
    else
      match splitOnNl r with
      | [] => [[c]]
      | h :: t => (c :: h) :: t

/-- Embeds `String.prototype.trimEnd`. -/
def jsTrimEnd (l : List Char) : List Char := (l.reverse.dropWhile jsSpace).reverse

/-- Embeds `String.prototype.trim`. -/
def jsTrim (l : List Char) : List Char :=
  ((l.dropWhile jsSpace).reverse.dropWhile jsSpace).reverse

/-- Embeds `email.trim().toLowerCase()` — the normalisation applied both to
submitted emails (line 87) and to captured emails in `parseEmails` (line 48). -/
def normalizeEmail (l : List Char) : List Char := (jsTrim l).map jsToLower

/-- One iteration of the loop body of `parseEmails`:
`match = line.match(...); if (match) emails.push(match[1].trim().toLowerCase())`. -/
def decodeLine (l : List Char) : Option (List Char) :=
  (lineMatch l).map normalizeEmail

/-- Embeds `parseEmails` (src/api/subscribe.js lines 44-51). -/
def parseEmails (md : List Char) : List (List Char) :=
  (splitOnNl md).filterMap decodeLine

/-- Decimal digit character (argument is taken modulo ten by the callers). -/
def digitChar (d : Nat) : Char :=
  if d = 0 then '0' else if d = 1 then '1' else if d = 2 then '2'
  else if d = 3 then '3' else if d = 4 then '4' else if d = 5 then '5'
  else if d = 6 then '6' else if d = 7 then '7' else if d = 8 then '8' else '9'

/-- Fuel-driven decimal rendering accumulator. -/
def natCharsAux : Nat → Nat → List Char → List Char
  | 0, _, acc => acc
  | fuel + 1, n, acc =>
    if n < 10 then digitChar (n % 10) :: acc
    else natCharsAux fuel (n / 10) (digitChar (n % 10) :: acc)

/-- Decimal rendering of a natural number, as produced by the template
literal coercion of `number` in the source. -/
def natChars (n : Nat) : List Char := natCharsAux (n + 1) n []

/-- Embeds the rendered entry text
`${number}. ${normalizedEmail} — ${timestamp}` (line 111, before the
trailing newline). -/
def renderEntry (n : Nat) (em today : List Char) : List Char :=
  natChars n ++ '.' :: ' ' :: (em ++ ' ' :: '—' :: ' ' :: today)

/-- Embeds `content.trimEnd() + '\n' + newLine` (line 112), where `newLine`
is the rendered entry followed by a newline (line 111). -/
def encodeDoc (content : List Char) (n : Nat) (em today : List Char) : List Char :=
  jsTrimEnd content ++ '\n' :: (renderEntry n em today ++ ['\n'])

/-- Embeds `/^[^\s@]+@[^\s@]+\.[^\s@]+$/.test(email)` as a backtracking
matcher; `test` holds exactly when the whole input decomposes accordingly. -/
def emailShape (l : List Char) : Option Unit :=
  plusMatch emailChar l (fun _ r =>
    litThen '@' (fun r2 =>
      plusMatch emailChar r2 (fun _ r3 =>
        litThen '.' (fun r4 =>
          plusMatch emailChar r4 (fun _ r5 =>
            if r5.isEmpty then some () else none)) r3)) r)

/-- Embeds `isValidEmail` (lines 53-55) applied to a string value. -/
def isValidEmail (l : List Char) : Bool :=
  (emailShape l).isSome && decide (l.length ≤ 254)

/-- The universe of JavaScript values a parsed JSON body can put in the
`email` field (strings inside arrays suffice for the claims below). -/
inductive JsPrim : Type
  | undef
  | jsNull
  | jsBool (b : Bool)
  | jsNum (n : Int)
  | jsStr (s : List Char)
  | jsArr (elems : List (List Char))
deriving DecidableEq

/-- JavaScript truthiness of the modelled values. -/
def truthy : JsPrim → Bool
  | .undef => false
  | .jsNull => false
  | .jsBool b => b
  | .jsNum n => decide (n ≠ 0)
  | .jsStr s => !s.isEmpty
  | .jsArr _ => true

/-- Decimal rendering of an integer (JavaScript number-to-string for the
integral values modelled here). -/
def intChars (n : Int) : List Char :=
  if n < 0 then '-' :: natChars n.natAbs else natChars n.toNat

/-- Array-to-string joins the elements with commas. -/
def joinComma : List (List Char) → List Char
  | [] => []
  | [x] => x
  | x :: y :: t => x ++ ',' :: joinComma (y :: t)

/-- JavaScript ToString coercion, as applied by `RegExp.prototype.test`. -/
def toStringJ : JsPrim → List Char
  | .undef => toChars "undefined"
  | .jsNull => toChars "null"
  | .jsBool true => toChars "true"
  | .jsBool false => toChars "false"
  | .jsNum n => intChars n
  | .jsStr s => s
  | .jsArr l => joinComma l

/-- The `.length` property of the modelled values: strings and arrays have
one, every other modelled value yields `undefined` (and `undefined <= 254`
is false). -/
def jsLength : JsPrim → Option Nat
  | .jsStr s => some s.length
  | .jsArr l => some l.length
  | _ => none

/-- Embeds `isValidEmail` (lines 53-55) applied to an arbitrary value:
`test` coerces its argument to a string, and the length check reads the
`.length` property of the original value. -/
def isValidEmailJs (v : JsPrim) : Bool :=
  (emailShape (toStringJ v)).isSome &&
  (match jsLength v with
   | some n => decide (n ≤ 254)
   | none => false)

/-- A fetched file: its decoded text content and its version token (the
GitHub blob sha, opaque here). -/
structure File where
  content : List Char
  sha : Nat
deriving DecidableEq

/-- Terminal responses of the POST path, with the HTTP payload data. -/
inductive Response : Type
  | success (count : Nat)
  | duplicate (count : Nat)
  | invalid
  | serverError
deriving DecidableEq

/-- The HTTP status code attached to each terminal response. -/
def statusOf : Response → Nat
  | .success _ => 200
  | .duplicate _ => 409
  | .invalid => 400
  | .serverError => 500

/-- Store behaviour offered to one attempt of the retry loop: either
`getFile` throws, or it returns `file` (with `none` modelling a 404) and a
conditional write issued during the attempt succeeds iff `putOk`. -/
inductive AttemptEnv : Type
  | fetchThrow
  | fetchOk (file : Option File) (putOk : Bool)
deriving DecidableEq

/-- Observable trace of one POST invocation: number of loop iterations
performed, the backoff waits in milliseconds, the conditional writes issued
(content together with the expected version token), and the response. -/
structure SubmitTrace where
  attempts : Nat
  waits : List Nat
  writes : List (List Char × Option Nat)
  response : Response
deriving DecidableEq

/-- Result of one iteration of the retry loop body. -/
inductive AttemptRes : Type
  | terminal (resp : Response) (writes : List (List Char × Option Nat))
  | failed (writes : List (List Char × Option Nat))
deriving DecidableEq

/-- The fresh-document text `'# Waitlist Signups\n\n'` (line 100). -/
def headerText : List Char := toChars "# Waitlist Signups\n\n"

/-- Embeds one iteration of the `try` block (lines 91-119): fetch, decode,
duplicate check, encode, conditional write. -/
def attemptEval (em today : List Char) (env : AttemptEnv) : AttemptRes :=
  match env with
  | .fetchThrow => .failed []
  | .fetchOk file putOk =>
    let content := match file with | some f => f.content | none => headerText
    let sha : Option Nat := match file with | some f => some f.sha | none => none
    let emails := match file with | some f => parseEmails f.content | none => []
    if em ∈ emails then .terminal (.duplicate emails.length) []
    else
      let updated := encodeDoc content (emails.length + 1) em today
      if putOk then .terminal (.success (emails.length + 1)) [(updated, sha)]
      else .failed [(updated, sha)]

/-- Embeds the retry loop `for (attempt = 0; attempt < 3; attempt++)`
(lines 90-128) with its catch block: on a terminal outcome return, on a
thrown store error either fail with 500 when `attempt === 2` or wait 500ms
and retry.  `fuel` only bounds the recursion; it is started at 3 so the
`attempt = 2` test is what actually stops the loop. -/
def submitGo (em today : List Char) (envs : Nat → AttemptEnv) :
    Nat → Nat → SubmitTrace
  | 0, _ => ⟨0, [], [], .serverError⟩
  | fuel + 1, attempt =>
    match attemptEval em today (envs attempt) with
    | .terminal resp ws => ⟨1, [], ws, resp⟩
    | .failed ws =>
      if attempt = 2 then ⟨1, [], ws, .serverError⟩
      else
        let t := submitGo em today envs fuel (attempt + 1)
        ⟨t.attempts + 1, 500 :: t.waits, ws ++ t.writes, t.response⟩

/-- The full retry loop, started at attempt 0. -/
def submit (em today : List Char) (envs : Nat → AttemptEnv) : SubmitTrace :=
  submitGo em today envs 3 0

/-- The POST request body: absent (or null) body, a body without an `email`
field, or a body carrying an `email` value. -/
inductive ReqBody : Type
  | missing
  | noField
  | field (v : JsPrim)
deriving DecidableEq

/-- Embeds `const { email } = req.body || {}` (line 81). -/
def emailOf : ReqBody → JsPrim
  | .missing => .undef
  | .noField => .undef
  | .field v => v

/-- Outcome of the POST path: either a reply was produced, or the handler
threw a TypeError before the retry loop (at `email.trim()` on line 87). -/
inductive PostOutcome : Type
  | reply (t : SubmitTrace)
  | thrown
deriving DecidableEq

/-- Embeds the POST path of the handler (lines 81-128): truthiness and
validity check, normalisation, retry loop.  `email.trim()` is only defined
on strings; a non-string value that survives validation makes the handler
throw. -/
def handlePost (body : ReqBody) (today : List Char) (envs : Nat → AttemptEnv) :
    PostOutcome :=
  let email := emailOf body
  if !(truthy email) || !(isValidEmailJs email) then .reply ⟨0, [], [], .invalid⟩
  else
    match email with
    | .jsStr s => .reply (submit (normalizeEmail s) today envs)
    | _ => .thrown

/-- Store behaviour offered to one GET invocation. -/
inductive FetchOutcome : Type
  | fetchFail
  | absent
  | found (f : File)
deriving DecidableEq

/-- Embeds the GET path (lines 66-76): any fetch failure or an absent file
yields count 0, otherwise the number of parsed entries; the status is 200
in every case.  Returns (status, count). -/
def handleGet : FetchOutcome → Nat × Nat
  | .fetchFail => (200, 0)
  | .absent => (200, 0)
  | .found f => (200, (parseEmails f.content).length)

/-- A nonempty run of decimal digits. -/
def digitRun (s : List Char) : Prop := s ≠ [] ∧ ∀ x ∈ s, jsDigit x = true

/-- A nonempty run of whitespace characters. -/
def wsRun (s : List Char) : Prop := s ≠ [] ∧ ∀ x ∈ s, jsSpace x = true

/-- A nonempty run of non-line-terminator characters. -/
def dotRun (s : List Char) : Prop := s ≠ [] ∧ ∀ x ∈ s, jsDot x = true

/-- The exact shape of lines accepted by the entry regex: digits, a dot,
whitespace, the liberal email shape, whitespace, an em-dash, whitespace,
and then an arbitrary (possibly empty) remainder. -/
def matchesEntryShape (l : List Char) : Prop :=
  ∃ ds s1 A B C s2 s3 rest,
    l = ds ++ '.' :: (s1 ++ (A ++ '@' :: (B ++ '.' :: (C ++ (s2 ++ '—' :: (s3 ++ rest)))))) ∧
    digitRun ds ∧ wsRun s1 ∧ dotRun A ∧ dotRun B ∧ dotRun C ∧ wsRun s2 ∧ wsRun s3

/-- The line shape claimed by the specification: as `matchesEntryShape`,
but with a nonempty date after the separator and its whitespace. -/
def specEntryShape (l : List Char) : Prop :=
  ∃ ds s1 A B C s2 s3 d,
    l = ds ++ '.' :: (s1 ++ (A ++ '@' :: (B ++ '.' :: (C ++ (s2 ++ '—' :: (s3 ++ d)))))) ∧
    digitRun ds ∧ wsRun s1 ∧ dotRun A ∧ dotRun B ∧ dotRun C ∧ wsRun s2 ∧ wsRun s3 ∧ d ≠ []

/-- The attempt raised a store error (thrown fetch, or a conditional write
that the store rejected). -/
def attemptThrows (em today : List Char) (env : AttemptEnv) : Prop :=
  ∃ ws, attemptEval em today env = .failed ws

/-- All characters of the rendered date are benign (true of every
`YYYY-MM-DD` timestamp). -/
def dateOk (today : List Char) : Prop := ∀ x ∈ today, dateChar x = true

/-! ### Character class facts -/

theorem emailChar_not_space {c : Char} (h : emailChar c = true) : jsSpace c = false := by
  simp only [emailChar, Bool.and_eq_true, Bool.not_eq_true'] at h
  exact h.1

theorem emailChar_not_at {c : Char} (h : emailChar c = true) : c ≠ '@' := by
  simp only [emailChar, Bool.and_eq_true, Bool.not_eq_true', decide_eq_false_iff_not] at h
  exact h.2

theorem not_space_jsDot {c : Char} (h : jsSpace c = false) : jsDot c = true := by
  simp only [jsSpace, Bool.or_eq_false_iff, decide_eq_false_iff_not, Bool.and_eq_false_iff,
    decide_eq_true_eq] at h
  simp only [jsDot, Bool.or_eq_false_iff, Bool.not_eq_true', decide_eq_false_iff_not]
  omega

theorem emailChar_jsDot {c : Char} (h : emailChar c = true) : jsDot c = true :=
  not_space_jsDot (emailChar_not_space h)

theorem dateChar_emailChar {c : Char} (h : dateChar c = true) : emailChar c = true := by
  simp only [dateChar, Bool.and_eq_true] at h
  exact h.1.1

theorem dateChar_not_dash {c : Char} (h : dateChar c = true) : c ≠ '—' := by
  simp only [dateChar, Bool.and_eq_true, Bool.not_eq_true', decide_eq_false_iff_not] at h
  exact h.1.2

theorem dateChar_not_dot {c : Char} (h : dateChar c = true) : c ≠ '.' := by
  simp only [dateChar, Bool.and_eq_true, Bool.not_eq_true', decide_eq_false_iff_not] at h
  exact h.2

/-! ### Backtracking primitive lemmas -/

theorem tryFrom_top {α : Type} {f : Nat → Option α} {k : Nat} {x : α}
    (h : f (k + 1) = some x) : tryFrom f (k + 1) = some x := by
  simp only [tryFrom, h, Option.orElse]

theorem tryFrom_eq_of {α : Type} {f : Nat → Option α} {k : Nat} {x : α}
    (m : Nat) (hk1 : 1 ≤ k) (hkm : k ≤ m) (hx : f k = some x)
    (hnone : ∀ j, k < j → j ≤ m → f j = none) : tryFrom f m = some x := by
  induction m with
  | zero => omega
  | succ m ih =>
    by_cases hkm2 : k = m + 1
    · exact tryFrom_top (hkm2 ▸ hx)
    · have hfm : f (m + 1) = none := hnone (m + 1) (by omega) (by omega)
      simp only [tryFrom, hfm, Option.orElse]
      exact ih (by omega) (fun j hj1 hj2 => hnone j hj1 (by omega))

theorem tryFrom_isSome_of {α : Type} {f : Nat → Option α} {k : Nat}
    (m : Nat) (hk1 : 1 ≤ k) (hkm : k ≤ m) (hx : (f k).isSome) :
    (tryFrom f m).isSome := by
  induction m with
  | zero => omega
  | succ m ih =>
    cases hfm : f (m + 1) with
    | some y => simp only [tryFrom, hfm, Option.orElse, Option.isSome_some]
    | none =>
      by_cases hkm2 : k = m + 1
      · rw [hkm2, hfm] at hx; simp at hx
      · simp only [tryFrom, hfm, Option.orElse]
        exact ih (by omega)

theorem tryFrom_sound {α : Type} {f : Nat → Option α} {x : α} :
    ∀ m, tryFrom f m = some x → ∃ k, 1 ≤ k ∧ k ≤ m ∧ f k = some x := by
  intro m
  induction m with
  | zero => intro h; simp [tryFrom] at h
  | succ m ih =>
    intro h
    cases hfm : f (m + 1) with
    | some y =>
      simp only [tryFrom, hfm, Option.orElse] at h
      exact ⟨m + 1, by omega, le_refl _, hfm.trans h⟩
    | none =>
      simp only [tryFrom, hfm, Option.orElse] at h
      obtain ⟨k, h1, h2, h3⟩ := ih h
      exact ⟨k, h1, by omega, h3⟩

theorem tryFrom_none_of {α : Type} {f : Nat → Option α}
    (m : Nat) (h : ∀ j, 1 ≤ j → j ≤ m → f j = none) : tryFrom f m = none := by
  induction m with
  | zero => rfl
  | succ m ih =>
    simp only [tryFrom, h (m + 1) (by omega) (le_refl _), Option.orElse]
    exact ih (fun j h1 h2 => h j h1 (by omega))

/-! ### takeWhile helpers -/

theorem takeWhile_append_all {p : Char → Bool} {l : List Char} (r : List Char)
    (h : ∀ x ∈ l, p x = true) : (l ++ r).takeWhile p = l ++ r.takeWhile p := by
  induction l with
  | nil => rfl
  | cons c t ih =>
    have hc : p c = true := h c (List.mem_cons_self c t)
    simp only [List.cons_append, List.takeWhile_cons, hc, if_true]
    rw [ih (fun x hx => h x (List.mem_cons_of_mem c hx))]

theorem takeWhile_eq_self {p : Char → Bool} {l : List Char}
    (h : ∀ x ∈ l, p x = true) : l.takeWhile p = l := by
  have := takeWhile_append_all (p := p) (l := l) [] h
  simpa using this

theorem length_takeWhile_ge {p : Char → Bool} {pre : List Char} (post : List Char)
    (h : ∀ x ∈ pre, p x = true) : pre.length ≤ ((pre ++ post).takeWhile p).length := by
  rw [takeWhile_append_all post h]
  simp

theorem take_of_le_takeWhile {p : Char → Bool} {l : List Char} {k : Nat}
    (h : k ≤ (l.takeWhile p).length) : ∀ x ∈ l.take k, p x = true := by
  intro x hx
  have hsplit : l = l.takeWhile p ++ l.dropWhile p := (List.takeWhile_append_dropWhile p l).symm
  rw [hsplit, List.take_append_eq_append_take] at hx
  have hz : k - (l.takeWhile p).length = 0 := by omega
  rw [hz] at hx
  simp only [List.take_zero, List.append_nil] at hx
  exact List.mem_takeWhile_imp (List.take_subset k _ hx)

/-! ### plusMatch and litThen lemmas -/

theorem plusMatch_eq_of {α : Type} {p : Char → Bool} {l : List Char}
    {f : List Char → List Char → Option α} {k : Nat} {x : α}
    (hk1 : 1 ≤ k) (hkm : k ≤ (l.takeWhile p).length)
    (hx : f (l.take k) (l.drop k) = some x)
    (hnone : ∀ j, k < j → j ≤ (l.takeWhile p).length → f (l.take j) (l.drop j) = none) :
    plusMatch p l f = some x :=
  tryFrom_eq_of _ hk1 hkm hx hnone

theorem plusMatch_isSome_of {α : Type} {p : Char → Bool} {pre post : List Char}
    {f : List Char → List Char → Option α}
    (hne : pre ≠ []) (hall : ∀ x ∈ pre, p x = true) (hs : (f pre post).isSome) :
    (plusMatch p (pre ++ post) f).isSome := by
  unfold plusMatch
  apply tryFrom_isSome_of (k := pre.length)
  · have := List.length_pos.mpr hne; omega
  · exact length_takeWhile_ge post hall
  · rw [List.take_left, List.drop_left]
    exact hs

theorem plusMatch_sound {α : Type} {p : Char → Bool} {l : List Char}
    {f : List Char → List Char → Option α} {x : α}
    (h : plusMatch p l f = some x) :
    ∃ k, 1 ≤ k ∧ k ≤ l.length ∧ (∀ y ∈ l.take k, p y = true) ∧
      f (l.take k) (l.drop k) = some x := by
  obtain ⟨k, h1, h2, h3⟩ := tryFrom_sound _ h
  have hlen : (l.takeWhile p).length ≤ l.length := (List.takeWhile_sublist p).length_le
  exact ⟨k, h1, by omega, take_of_le_takeWhile (by omega), h3⟩

theorem plusMatch_none_of {α : Type} {p : Char → Bool} {l : List Char}
    {f : List Char → List Char → Option α}
    (h : ∀ j, 1 ≤ j → j ≤ (l.takeWhile p).length → f (l.take j) (l.drop j) = none) :
    plusMatch p l f = none :=
  tryFrom_none_of _ h

theorem litThen_cons {α : Type} {ch : Char} {g : List Char → Option α} {r : List Char} :
    litThen ch g (ch :: r) = g r := by
  simp [litThen]

theorem litThen_none_of {α : Type} {ch : Char} {g : List Char → Option α} {L : List Char}
    (h : ∀ x ∈ L, x ≠ ch) : litThen ch g L = none := by
  cases L with
  | nil => rfl
  | cons c r =>
    have : c ≠ ch := h c (List.mem_cons_self c r)
    simp [litThen, this]

theorem litThen_sound {α : Type} {ch : Char} {g : List Char → Option α} {L : List Char}
    {x : α} (h : litThen ch g L = some x) : ∃ r, L = ch :: r ∧ g r = some x := by
  cases L with
  | nil => simp [litThen] at h
  | cons c r =>
    by_cases hc : c = ch
    · subst hc; rw [litThen_cons] at h; exact ⟨r, rfl, h⟩
    · simp [litThen, hc] at h

theorem plusMatch_trivial {α : Type} {p : Char → Bool} {l : List Char} {x : α}
    (hl : 1 ≤ (l.takeWhile p).length) :
    plusMatch p l (fun _ _ => some x) = some x :=
  plusMatch_eq_of hl (le_refl _) rfl (fun j h1 h2 => by omega)

theorem plusMatch_zero {α : Type} {p : Char → Bool} {l : List Char}
    {f : List Char → List Char → Option α}
    (h : (l.takeWhile p).length = 0) : plusMatch p l f = none := by
  unfold plusMatch
  rw [h]
  rfl

/-! ### matchTail lemmas -/

theorem matchTail_sep (rest : List Char) :
    matchTail (' ' :: '—' :: ' ' :: rest) = some () := by
  have h1 : jsSpace ' ' = true := by decide
  have h2 : jsSpace '—' = false := by decide
  have htw : (' ' :: '—' :: ' ' :: rest).takeWhile jsSpace = [' '] := by
    simp [List.takeWhile_cons, h1, h2]
  unfold matchTail
  apply plusMatch_eq_of (k := 1)
  · omega
  · rw [htw]; simp
  · show litThen '—' _ (('—' :: ' ' :: rest)) = some ()
    rw [litThen_cons]
    apply plusMatch_trivial
    simp [List.takeWhile_cons, h1]
  · intro j hj1 hj2
    rw [htw] at hj2
    simp at hj2
    omega

theorem matchTail_none_head {c : Char} {r : List Char} (h : jsSpace c = false) :
    matchTail (c :: r) = none := by
  unfold matchTail
  apply plusMatch_zero
  simp [List.takeWhile_cons, h]

theorem matchTail_none_all {L : List Char} (h : ∀ x ∈ L, jsSpace x = false) :
    matchTail L = none := by
  cases L with
  | nil => rfl
  | cons c r => exact matchTail_none_head (h c (List.mem_cons_self c r))

theorem matchTail_space_nodate {today : List Char} (ht : dateOk today) :
    matchTail (' ' :: today) = none := by
  have h1 : jsSpace ' ' = true := by decide
  have htw : (' ' :: today).takeWhile jsSpace = [' '] := by
    cases today with
    | nil => simp [List.takeWhile_cons, h1]
    | cons c r =>
      have hc : jsSpace c = false :=
        emailChar_not_space (dateChar_emailChar (ht c (List.mem_cons_self c r)))
      simp [List.takeWhile_cons, h1, hc]
  unfold matchTail
  apply plusMatch_none_of
  intro j hj1 hj2
  rw [htw] at hj2
  simp at hj2
  have hj : j = 1 := by omega
  subst hj
  simp only [List.drop_succ_cons, List.drop_zero]
  apply litThen_none_of
  intro x hx
  exact dateChar_not_dash (ht x hx)

theorem sep_drop_matchTail_none {today : List Char} (ht : dateOk today) :
    ∀ i, 1 ≤ i → matchTail ((' ' :: '—' :: ' ' :: today).drop i) = none := by
  intro i hi
  match i, hi with
  | 1, _ =>
    simp only [List.drop_succ_cons, List.drop_zero]
    exact matchTail_none_head (by decide)
  | 2, _ =>
    simp only [List.drop_succ_cons, List.drop_zero]
    exact matchTail_space_nodate ht
  | (n + 3), _ =>
    simp only [List.drop_succ_cons]
    apply matchTail_none_all
    intro x hx
    exact emailChar_not_space (dateChar_emailChar (ht x (List.drop_subset n today hx)))

theorem take_ne_nil_of {α : Type} {l : List α} {k : Nat} (hk1 : 1 ≤ k)
    (hk2 : k ≤ l.length) : l.take k ≠ [] := by
  intro hc
  have := congrArg List.length hc
  simp only [List.length_take, List.length_nil] at this
  omega

theorem matchTail_sound {L : List Char} {u : Unit} (h : matchTail L = some u) :
    ∃ s2 s3 rest, L = s2 ++ '—' :: (s3 ++ rest) ∧ wsRun s2 ∧ wsRun s3 := by
  obtain ⟨k, hk1, hk2, hall, hf⟩ := plusMatch_sound h
  obtain ⟨r2, hr2, hg⟩ := litThen_sound hf
  obtain ⟨k2, hk21, hk22, hall2, hf2⟩ := plusMatch_sound hg
  refine ⟨L.take k, r2.take k2, r2.drop k2, ?_, ?_, ?_⟩
  · conv_lhs => rw [← List.take_append_drop k L]
    rw [hr2, List.take_append_drop]
  · exact ⟨take_ne_nil_of hk1 hk2, hall⟩
  · exact ⟨take_ne_nil_of hk21 hk22, hall2⟩

theorem matchTail_complete {s2 s3 rest : List Char} (h2 : wsRun s2) (h3 : wsRun s3) :
    (matchTail (s2 ++ '—' :: (s3 ++ rest))).isSome := by
  unfold matchTail
  apply plusMatch_isSome_of h2.1 h2.2
  rw [litThen_cons]
  exact plusMatch_isSome_of h3.1 h3.2 (by simp)

/-! ### matchC lemmas -/

theorem matchC_pos {v today : List Char} (hv : v ≠ [])
    (hall : ∀ x ∈ v, emailChar x = true) (ht : dateOk today) :
    matchC (v ++ ' ' :: '—' :: ' ' :: today) = some v := by
  have hdot : ∀ x ∈ v ++ ' ' :: '—' :: ' ' :: today, jsDot x = true := by
    intro x hx
    rcases List.mem_append.mp hx with hxv | hxs
    · exact emailChar_jsDot (hall x hxv)
    · rcases hxs with _ | ⟨_, _ | ⟨_, _ | ⟨_, hxt⟩⟩⟩
      · decide
      · decide
      · decide
      · exact emailChar_jsDot (dateChar_emailChar (ht _ hxt))
  have htw : (v ++ ' ' :: '—' :: ' ' :: today).takeWhile jsDot =
      v ++ ' ' :: '—' :: ' ' :: today := takeWhile_eq_self hdot
  unfold matchC
  apply plusMatch_eq_of (k := v.length)
  · exact List.length_pos.mpr hv
  · rw [htw]; simp
  · rw [List.take_left, List.drop_left, matchTail_sep]
    rfl
  · intro j hj1 hj2
    have hj3 : v.length + (j - v.length) = j := by omega
    have hdrop : (v ++ ' ' :: '—' :: ' ' :: today).drop j =
        ((v ++ ' ' :: '—' :: ' ' :: today).drop v.length).drop (j - v.length) := by
      rw [List.drop_drop, hj3]
    rw [List.drop_left] at hdrop
    rw [hdrop, sep_drop_matchTail_none ht (j - v.length) (by omega)]
    rfl

theorem matchC_nil {today : List Char} (ht : dateOk today) :
    matchC (' ' :: '—' :: ' ' :: today) = none := by
  unfold matchC
  apply plusMatch_none_of
  intro j hj1 hj2
  rw [sep_drop_matchTail_none ht j hj1]
  rfl

theorem matchC_sound {L C : List Char} (h : matchC L = some C) :
    ∃ rest, L = C ++ rest ∧ dotRun C ∧ (matchTail rest).isSome := by
  obtain ⟨k, hk1, hk2, hall, hf⟩ := plusMatch_sound h
  have hmap := hf
  cases htl : matchTail (L.drop k) with
  | none => rw [htl] at hmap; simp at hmap
  | some u =>
    rw [htl] at hmap
    simp only [Option.map_some'] at hmap
    have hC : L.take k = C := by injection hmap
    refine ⟨L.drop k, ?_, ?_, ?_⟩
    · rw [← hC, List.take_append_drop]
    · exact ⟨hC ▸ take_ne_nil_of hk1 hk2, hC ▸ hall⟩
    · rw [htl]; rfl

theorem matchC_complete {C rest : List Char} (hC : dotRun C)
    (hrest : (matchTail rest).isSome) : (matchC (C ++ rest)).isSome := by
  unfold matchC
  apply plusMatch_isSome_of hC.1 hC.2
  rw [Option.isSome_map']
  exact hrest

/-! ### more list helpers -/

theorem drop_append_ge {α : Type} (x y : List α) {k : Nat} (h : x.length ≤ k) :
    (x ++ y).drop k = y.drop (k - x.length) := by
  have h3 : x.length + (k - x.length) = k := by omega
  calc (x ++ y).drop k = ((x ++ y).drop x.length).drop (k - x.length) := by
        rw [List.drop_drop, h3]
    _ = y.drop (k - x.length) := by rw [List.drop_left]

theorem take_append_le {α : Type} (x y : List α) {k : Nat} (h : k ≤ x.length) :
    (x ++ y).take k = x.take k := by
  rw [List.take_append_eq_append_take]
  have hz : k - x.length = 0 := by omega
  rw [hz]
  simp

/-! ### matchB lemmas -/

theorem dot_not_mem_sep {today : List Char} (ht : dateOk today) :
    ∀ x ∈ ' ' :: '—' :: ' ' :: today, x ≠ '.' := by
  intro x hx
  rcases hx with _ | ⟨_, _ | ⟨_, _ | ⟨_, hxt⟩⟩⟩
  · decide
  · decide
  · decide
  · exact dateChar_not_dot (ht _ hxt)

theorem matchB_char {b c today : List Char} (hb : b ≠ [])
    (hball : ∀ x ∈ b, emailChar x = true) (hc : c ≠ [])
    (hcall : ∀ x ∈ c, emailChar x = true) (ht : dateOk today) :
    ∃ B C, matchB ((b ++ '.' :: c) ++ ' ' :: '—' :: ' ' :: today) = some (B, C) ∧
      B ++ '.' :: C = b ++ '.' :: c := by
  have hassoc : (b ++ '.' :: c) ++ ' ' :: '—' :: ' ' :: today =
      b ++ '.' :: (c ++ ' ' :: '—' :: ' ' :: today) := by
    simp [List.append_assoc]
  have huall : ∀ x ∈ b ++ '.' :: c, emailChar x = true := by
    intro x hx
    rcases List.mem_append.mp hx with hxb | hxc
    · exact hball x hxb
    · rcases hxc with _ | ⟨_, hxc2⟩
      · decide
      · exact hcall x hxc2
  have hsome : (matchB ((b ++ '.' :: c) ++ ' ' :: '—' :: ' ' :: today)).isSome := by
    rw [hassoc]
    unfold matchB
    apply plusMatch_isSome_of hb (fun x hx => emailChar_jsDot (hball x hx))
    rw [litThen_cons, matchC_pos hc hcall ht]
    rfl
  obtain ⟨⟨B, C⟩, hBC⟩ := Option.isSome_iff_exists.mp hsome
  refine ⟨B, C, hBC, ?_⟩
  obtain ⟨k, hk1, hk2, hall, hf⟩ := plusMatch_sound hBC
  obtain ⟨r2, hdrop, hg⟩ := litThen_sound hf
  cases hmc : matchC r2 with
  | none => rw [hmc] at hg; simp at hg
  | some C2 =>
    rw [hmc] at hg
    simp only [Option.map_some'] at hg
    have hB : ((b ++ '.' :: c) ++ ' ' :: '—' :: ' ' :: today).take k = B := by
      injection hg with hg1; exact congrArg Prod.fst hg1
    have hC2 : C2 = C := by
      injection hg with hg1; exact congrArg Prod.snd hg1
    subst hC2
    have hklt : k < (b ++ '.' :: c).length := by
      by_contra hge
      push_neg at hge
      rw [drop_append_ge _ _ hge] at hdrop
      have hmem : '.' ∈ (' ' :: '—' :: ' ' :: today).drop (k - (b ++ '.' :: c).length) := by
        rw [hdrop]; exact List.mem_cons_self _ _
      exact dot_not_mem_sep ht '.' (List.drop_subset _ _ hmem) rfl
    rw [List.drop_append_of_le_length (by omega)] at hdrop
    cases hdu : (b ++ '.' :: c).drop k with
    | nil =>
      have := List.drop_eq_nil_iff.mp hdu
      omega
    | cons d u2 =>
      rw [hdu] at hdrop
      simp only [List.cons_append, List.cons.injEq] at hdrop
      obtain ⟨hd, hr2⟩ := hdrop
      have hu2all : ∀ x ∈ u2, emailChar x = true := by
        intro x hx
        have : x ∈ (b ++ '.' :: c).drop k := by rw [hdu]; exact List.mem_cons_of_mem _ hx
        exact huall x (List.drop_subset _ _ this)
      have hu2ne : u2 ≠ [] := by
        intro hnil
        subst hnil
        rw [← hr2] at hmc
        simp only [List.nil_append] at hmc
        rw [matchC_nil ht] at hmc
        exact Option.noConfusion hmc
      have hmcval : matchC r2 = some u2 := by
        rw [← hr2]
        exact matchC_pos hu2ne hu2all ht
      rw [hmc] at hmcval
      have hCu2 : C2 = u2 := Option.some.inj hmcval
      have hBtake : B = (b ++ '.' :: c).take k := by
        rw [← hB, take_append_le _ _ (by omega)]
      have hglue : (b ++ '.' :: c).take k ++ (b ++ '.' :: c).drop k = b ++ '.' :: c :=
        List.take_append_drop _ _
      rw [hdu, hd] at hglue
      rw [hBtake, hCu2]
      exact hglue

theorem matchB_sound {L B C : List Char} (h : matchB L = some (B, C)) :
    ∃ rest, L = B ++ '.' :: (C ++ rest) ∧ dotRun B ∧ dotRun C ∧
      (matchTail rest).isSome := by
  obtain ⟨k, hk1, hk2, hall, hf⟩ := plusMatch_sound h
  obtain ⟨r2, hdrop, hg⟩ := litThen_sound hf
  cases hmc : matchC r2 with
  | none => rw [hmc] at hg; simp at hg
  | some C2 =>
    rw [hmc] at hg
    simp only [Option.map_some'] at hg
    have hB : L.take k = B := by injection hg with hg1; exact congrArg Prod.fst hg1
    have hC2 : C2 = C := by injection hg with hg1; exact congrArg Prod.snd hg1
    subst hC2
    obtain ⟨rest, hr, hCrun, htail⟩ := matchC_sound hmc
    refine ⟨rest, ?_, ?_, hCrun, htail⟩
    · conv_lhs => rw [← List.take_append_drop k L]
      rw [hdrop, hB, hr]
    · exact ⟨hB ▸ take_ne_nil_of hk1 hk2, hB ▸ hall⟩

theorem matchB_complete {B C rest : List Char} (hB : dotRun B) (hC : dotRun C)
    (h : (matchTail rest).isSome) : (matchB (B ++ '.' :: (C ++ rest))).isSome := by
  unfold matchB
  apply plusMatch_isSome_of hB.1 hB.2
  rw [litThen_cons, Option.isSome_map']
  exact matchC_complete hC h

/-! ### matchA lemmas -/

theorem sep_all_jsDot {today : List Char} (ht : dateOk today) :
    ∀ x ∈ ' ' :: '—' :: ' ' :: today, jsDot x = true := by
  intro x hx
  rcases hx with _ | ⟨_, _ | ⟨_, _ | ⟨_, hxt⟩⟩⟩
  · decide
  · decide
  · decide
  · exact emailChar_jsDot (dateChar_emailChar (ht _ hxt))

theorem sep_no_at {today : List Char} (ht : dateOk today) :
    ∀ x ∈ ' ' :: '—' :: ' ' :: today, x ≠ '@' := by
  intro x hx
  rcases hx with _ | ⟨_, _ | ⟨_, _ | ⟨_, hxt⟩⟩⟩
  · decide
  · decide
  · decide
  · exact emailChar_not_at (dateChar_emailChar (ht _ hxt))

theorem matchA_char {a b c today : List Char} (ha : a ≠ [])
    (haall : ∀ x ∈ a, emailChar x = true) (hb : b ≠ [])
    (hball : ∀ x ∈ b, emailChar x = true) (hc : c ≠ [])
    (hcall : ∀ x ∈ c, emailChar x = true) (ht : dateOk today) :
    matchA (a ++ '@' :: ((b ++ '.' :: c) ++ ' ' :: '—' :: ' ' :: today)) =
      some (a ++ '@' :: (b ++ '.' :: c)) := by
  have huall : ∀ x ∈ b ++ '.' :: c, emailChar x = true := by
    intro x hx
    rcases List.mem_append.mp hx with hxb | hxc
    · exact hball x hxb
    · rcases hxc with _ | ⟨_, hxc2⟩
      · decide
      · exact hcall x hxc2
  have hWall : ∀ x ∈ (b ++ '.' :: c) ++ ' ' :: '—' :: ' ' :: today, jsDot x = true := by
    intro x hx
    rcases List.mem_append.mp hx with hxu | hxs
    · exact emailChar_jsDot (huall x hxu)
    · exact sep_all_jsDot ht x hxs
  have hWat : ∀ x ∈ (b ++ '.' :: c) ++ ' ' :: '—' :: ' ' :: today, x ≠ '@' := by
    intro x hx
    rcases List.mem_append.mp hx with hxu | hxs
    · exact emailChar_not_at (huall x hxu)
    · exact sep_no_at ht x hxs
  have htw : (a ++ '@' :: ((b ++ '.' :: c) ++ ' ' :: '—' :: ' ' :: today)).takeWhile jsDot =
      a ++ '@' :: ((b ++ '.' :: c) ++ ' ' :: '—' :: ' ' :: today) := by
    apply takeWhile_eq_self
    intro x hx
    rcases List.mem_append.mp hx with hxa | hxr
    · exact emailChar_jsDot (haall x hxa)
    · rcases hxr with _ | ⟨_, hxW⟩
      · decide
      · exact hWall x hxW
  unfold matchA
  apply plusMatch_eq_of (k := a.length)
  · exact List.length_pos.mpr ha
  · rw [htw]; simp
  · rw [List.take_left, List.drop_left, litThen_cons]
    obtain ⟨B, C, hBC, hglue⟩ := matchB_char hb hball hc hcall ht
    rw [hBC]
    simp only [Option.map_some']
    have : a ++ '@' :: B ++ '.' :: C = a ++ '@' :: (b ++ '.' :: c) := by
      rw [← hglue]
      simp [List.cons_append, List.append_assoc]
    rw [this]
  · intro j hj1 hj2
    have hd1 : (a ++ '@' :: ((b ++ '.' :: c) ++ ' ' :: '—' :: ' ' :: today)).drop j =
        ('@' :: ((b ++ '.' :: c) ++ ' ' :: '—' :: ' ' :: today)).drop (j - a.length) :=
      drop_append_ge a _ (by omega)
    have hd2 : ('@' :: ((b ++ '.' :: c) ++ ' ' :: '—' :: ' ' :: today)).drop (j - a.length) =
        ((b ++ '.' :: c) ++ ' ' :: '—' :: ' ' :: today).drop (j - a.length - 1) := by
      have : ('@' :: ((b ++ '.' :: c) ++ ' ' :: '—' :: ' ' :: today)) =
          ['@'] ++ ((b ++ '.' :: c) ++ ' ' :: '—' :: ' ' :: today) := rfl
      rw [this, drop_append_ge ['@'] _ (by simp; omega)]
      rfl
    rw [hd1, hd2]
    apply litThen_none_of
    intro x hx
    exact hWat x (List.drop_subset _ _ hx)

theorem matchA_sound {L e : List Char} (h : matchA L = some e) :
    ∃ A B C rest, L = A ++ '@' :: (B ++ '.' :: (C ++ rest)) ∧ dotRun A ∧
      dotRun B ∧ dotRun C ∧ (matchTail rest).isSome ∧
      e = A ++ '@' :: (B ++ '.' :: C) := by
  obtain ⟨k, hk1, hk2, hall, hf⟩ := plusMatch_sound h
  obtain ⟨r2, hdrop, hg⟩ := litThen_sound hf
  cases hmb : matchB r2 with
  | none => rw [hmb] at hg; simp at hg
  | some BC =>
    obtain ⟨B, C⟩ := BC
    rw [hmb] at hg
    simp only [Option.map_some'] at hg
    obtain ⟨rest, hr, hBrun, hCrun, htail⟩ := matchB_sound hmb
    refine ⟨L.take k, B, C, rest, ?_, ?_, hBrun, hCrun, htail, ?_⟩
    · conv_lhs => rw [← List.take_append_drop k L]
      rw [hdrop, hr]
    · exact ⟨take_ne_nil_of hk1 hk2, hall⟩
    · rw [← Option.some.inj hg]
      simp [List.cons_append, List.append_assoc]

theorem matchA_complete {A B C rest : List Char} (hA : dotRun A) (hB : dotRun B)
    (hC : dotRun C) (h : (matchTail rest).isSome) :
    (matchA (A ++ '@' :: (B ++ '.' :: (C ++ rest)))).isSome := by
  unfold matchA
  apply plusMatch_isSome_of hA.1 hA.2
  rw [litThen_cons, Option.isSome_map']
  exact matchB_complete hB hC h

/-! ### decimal rendering lemmas -/

theorem jsDigit_digitChar (d : Nat) : jsDigit (digitChar d) = true := by
  unfold digitChar
  repeat' split
  all_goals decide

theorem natCharsAux_digits :
    ∀ fuel n (acc : List Char), (∀ x ∈ acc, jsDigit x = true) →
      ∀ x ∈ natCharsAux fuel n acc, jsDigit x = true := by
  intro fuel
  induction fuel with
  | zero =>
    intro n acc hacc x hx
    simp only [natCharsAux] at hx
    exact hacc x hx
  | succ fuel ih =>
    intro n acc hacc x hx
    have hacc2 : ∀ y ∈ digitChar (n % 10) :: acc, jsDigit y = true := by
      intro y hy
      rcases hy with _ | ⟨_, hy2⟩
      · exact jsDigit_digitChar _
      · exact hacc y hy2
    simp only [natCharsAux] at hx
    split at hx
    · exact hacc2 x hx
    · exact ih _ _ hacc2 x hx

theorem natChars_digits (n : Nat) : ∀ x ∈ natChars n, jsDigit x = true :=
  natCharsAux_digits _ _ _ (by simp)

theorem natCharsAux_nil_acc :
    ∀ fuel n (acc : List Char), natCharsAux fuel n acc = [] → acc = [] := by
  intro fuel
  induction fuel with
  | zero => intro n acc h; simpa [natCharsAux] using h
  | succ fuel ih =>
    intro n acc h
    simp only [natCharsAux] at h
    split at h
    · exact absurd h (by simp)
    · have := ih _ _ h
      exact absurd this (by simp)

theorem natChars_ne_nil (n : Nat) : natChars n ≠ [] := by
  intro h
  unfold natChars at h
  simp only [natCharsAux] at h
  split at h
  · exact absurd h (by simp)
  · have := natCharsAux_nil_acc _ _ _ h
    exact absurd this (by simp)

/-! ### splitOnNl lemmas -/

theorem splitOnNl_ne_nil (l : List Char) : splitOnNl l ≠ [] := by
  induction l with
  | nil => simp [splitOnNl]
  | cons c r ih =>
    simp only [splitOnNl]
    split
    · simp
    · split
      · simp
      · simp

theorem splitOnNl_cons_nl (r : List Char) : splitOnNl ('\n' :: r) = [] :: splitOnNl r := by
  simp [splitOnNl]

theorem splitOnNl_cons_other {c : Char} (r : List Char) (hc : c ≠ '\n') :
    splitOnNl (c :: r) =
      match splitOnNl r with
      | [] => [[c]]
      | h :: t => (c :: h) :: t := by
  simp [splitOnNl, hc]

theorem splitOnNl_append (x y : List Char) :
    splitOnNl (x ++ '\n' :: y) = splitOnNl x ++ splitOnNl y := by
  induction x with
  | nil => simp [splitOnNl]
  | cons c x ih =>
    by_cases hc : c = '\n'
    · subst hc
      rw [List.cons_append, splitOnNl_cons_nl, splitOnNl_cons_nl, ih]
      rfl
    · rw [List.cons_append, splitOnNl_cons_other _ hc, splitOnNl_cons_other _ hc, ih]
      cases hx : splitOnNl x with
      | nil => exact absurd hx (splitOnNl_ne_nil x)
      | cons h t => rfl

theorem splitOnNl_single {l : List Char} (h : ∀ c ∈ l, c ≠ '\n') :
    splitOnNl l = [l] := by
  induction l with
  | nil => rfl
  | cons c r ih =>
    have hc : c ≠ '\n' := h c (List.mem_cons_self c r)
    rw [splitOnNl_cons_other _ hc, ih (fun d hd => h d (List.mem_cons_of_mem _ hd))]

/-! ### lineMatch lemmas -/

theorem takeWhile_nil_head {p : Char → Bool} {c : Char} {r : List Char}
    (h : p c = false) : (c :: r).takeWhile p = [] := by
  simp [List.takeWhile_cons, h]

theorem lineMatch_renderEntry {n : Nat} {a b c today : List Char}
    (ha : a ≠ []) (haall : ∀ x ∈ a, emailChar x = true)
    (hb : b ≠ []) (hball : ∀ x ∈ b, emailChar x = true)
    (hc : c ≠ []) (hcall : ∀ x ∈ c, emailChar x = true) (ht : dateOk today) :
    lineMatch (renderEntry n (a ++ '@' :: (b ++ '.' :: c)) today) =
      some (a ++ '@' :: (b ++ '.' :: c)) := by
  have hrest : (a ++ '@' :: (b ++ '.' :: c)) ++ ' ' :: '—' :: ' ' :: today =
      a ++ '@' :: ((b ++ '.' :: c) ++ ' ' :: '—' :: ' ' :: today) := by
    simp [List.append_assoc]
  have hem : renderEntry n (a ++ '@' :: (b ++ '.' :: c)) today =
      natChars n ++ '.' :: ' ' ::
        (a ++ '@' :: ((b ++ '.' :: c) ++ ' ' :: '—' :: ' ' :: today)) := by
    unfold renderEntry
    rw [← hrest]
  rw [hem]
  have htw : (natChars n ++ '.' :: ' ' ::
      (a ++ '@' :: ((b ++ '.' :: c) ++ ' ' :: '—' :: ' ' :: today))).takeWhile jsDigit =
      natChars n := by
    rw [takeWhile_append_all _ (natChars_digits n), takeWhile_nil_head (by decide)]
    simp
  unfold lineMatch
  apply plusMatch_eq_of (k := (natChars n).length)
  · exact List.length_pos.mpr (natChars_ne_nil n)
  · exact le_of_eq (congrArg List.length htw).symm
  · rw [List.drop_left, litThen_cons]
    obtain ⟨x, a2, rfl⟩ : ∃ x a2, a = x :: a2 := by
      cases a with
      | nil => exact absurd rfl ha
      | cons x a2 => exact ⟨x, a2, rfl⟩
    have hx : jsSpace x = false :=
      emailChar_not_space (haall x (List.mem_cons_self _ _))
    have htw2 : (' ' :: ((x :: a2) ++ '@' ::
        ((b ++ '.' :: c) ++ ' ' :: '—' :: ' ' :: today))).takeWhile jsSpace = [' '] := by
      rw [List.takeWhile_cons]
      simp only [List.cons_append]
      rw [takeWhile_nil_head hx]
      decide
    apply plusMatch_eq_of (k := 1)
    · omega
    · rw [htw2]; simp
    · simp only [List.drop_succ_cons, List.drop_zero, List.take_succ_cons, List.take_zero]
      exact matchA_char (by simp) haall hb hball hc hcall ht
    · intro j hj1 hj2
      rw [htw2] at hj2
      simp at hj2
      omega
  · intro j hj1 hj2
    rw [htw] at hj2
    omega

theorem lineMatch_sound {l e : List Char} (h : lineMatch l = some e) :
    matchesEntryShape l := by
  obtain ⟨k1, hk11, hk12, hall1, hf1⟩ := plusMatch_sound h
  obtain ⟨r2, hdrop1, hg1⟩ := litThen_sound hf1
  obtain ⟨k2, hk21, hk22, hall2, hf2⟩ := plusMatch_sound hg1
  obtain ⟨A, B, C, rest, hdec, hA, hB, hC, htail, _⟩ := matchA_sound hf2
  obtain ⟨u, hu⟩ := Option.isSome_iff_exists.mp htail
  obtain ⟨s2, s3, rest2, hrest, hs2, hs3⟩ := matchTail_sound hu
  refine ⟨l.take k1, r2.take k2, A, B, C, s2, s3, rest2, ?_, ?_, ?_, hA, hB, hC, hs2, hs3⟩
  · conv_lhs => rw [← List.take_append_drop k1 l]
    rw [hdrop1]
    congr 2
    conv_lhs => rw [← List.take_append_drop k2 r2]
    rw [hdec, hrest]
  · exact ⟨take_ne_nil_of hk11 hk12, hall1⟩
  · exact ⟨take_ne_nil_of hk21 hk22, hall2⟩

theorem lineMatch_complete {l : List Char} (h : matchesEntryShape l) :
    (lineMatch l).isSome := by
  obtain ⟨ds, s1, A, B, C, s2, s3, rest, hdec, hds, hs1, hA, hB, hC, hs2, hs3⟩ := h
  subst hdec
  unfold lineMatch
  apply plusMatch_isSome_of hds.1 hds.2
  rw [litThen_cons]
  apply plusMatch_isSome_of hs1.1 hs1.2
  exact matchA_complete hA hB hC (matchTail_complete hs2 hs3)

/-! ### emailShape lemmas -/

theorem emailShape_sound {l : List Char} (h : (emailShape l).isSome) :
    ∃ a b c, l = a ++ '@' :: (b ++ '.' :: c) ∧ a ≠ [] ∧ b ≠ [] ∧ c ≠ [] ∧
      (∀ x ∈ a, emailChar x = true) ∧ (∀ x ∈ b, emailChar x = true) ∧
      (∀ x ∈ c, emailChar x = true) := by
  obtain ⟨u, hu⟩ := Option.isSome_iff_exists.mp h
  obtain ⟨k1, hk11, hk12, hall1, hf1⟩ := plusMatch_sound hu
  obtain ⟨r2, hdrop1, hg1⟩ := litThen_sound hf1
  obtain ⟨k2, hk21, hk22, hall2, hf2⟩ := plusMatch_sound hg1
  obtain ⟨r4, hdrop2, hg2⟩ := litThen_sound hf2
  obtain ⟨k3, hk31, hk32, hall3, hf3⟩ := plusMatch_sound hg2
  have hnil : r4.drop k3 = [] := by
    cases hdd : r4.drop k3 with
    | nil => rfl
    | cons d t => rw [hdd] at hf3; simp at hf3
  refine ⟨l.take k1, r2.take k2, r4.take k3, ?_, take_ne_nil_of hk11 hk12,
    take_ne_nil_of hk21 hk22, take_ne_nil_of hk31 hk32, hall1, hall2, hall3⟩
  conv_lhs => rw [← List.take_append_drop k1 l]
  rw [hdrop1]
  congr 2
  conv_lhs => rw [← List.take_append_drop k2 r2]
  rw [hdrop2]
  congr 2
  conv_lhs => rw [← List.take_append_drop k3 r4]
  rw [hnil, List.append_nil]

theorem emailShape_complete {a b c : List Char} (ha : a ≠ []) (hb : b ≠ [])
    (hc : c ≠ []) (haall : ∀ x ∈ a, emailChar x = true)
    (hball : ∀ x ∈ b, emailChar x = true) (hcall : ∀ x ∈ c, emailChar x = true) :
    (emailShape (a ++ '@' :: (b ++ '.' :: c))).isSome := by
  unfold emailShape
  apply plusMatch_isSome_of ha haall
  rw [litThen_cons]
  apply plusMatch_isSome_of hb hball
  rw [litThen_cons]
  conv_lhs => rw [← List.append_nil c]
  apply plusMatch_isSome_of hc hcall
  simp

theorem emailShape_no_ws {l : List Char} (h : (emailShape l).isSome) :
    ∀ x ∈ l, jsSpace x = false := by
  obtain ⟨a, b, c, hdec, _, _, _, haall, hball, hcall⟩ := emailShape_sound h
  subst hdec
  intro x hx
  rcases List.mem_append.mp hx with hxa | hxr
  · exact emailChar_not_space (haall x hxa)
  · rcases hxr with _ | ⟨_, hxr2⟩
    · decide
    · rcases List.mem_append.mp hxr2 with hxb | hxc
      · exact emailChar_not_space (hball x hxb)
      · rcases hxc with _ | ⟨_, hxc2⟩
        · decide
        · exact emailChar_not_space (hcall x hxc2)

theorem emailShape_ne_nil {l : List Char} (h : (emailShape l).isSome) : l ≠ [] := by
  obtain ⟨a, b, c, hdec, ha, _, _, _, _, _⟩ := emailShape_sound h
  subst hdec
  intro hc
  cases a with
  | nil => exact absurd rfl ha
  | cons x t => simp at hc

/-! ### jsToLower lemmas -/

theorem toNat_ofNat_lt {m : Nat} (h : m < 55296) : (Char.ofNat m).toNat = m := by
  have hv : Nat.isValidChar m := Or.inl h
  rw [Char.ofNat, dif_pos hv]
  rfl

theorem char_eq_iff_toNat {c d : Char} : c = d ↔ c.toNat = d.toNat := by
  constructor
  · intro h; rw [h]
  · intro h; rw [← Char.ofNat_toNat c, h, Char.ofNat_toNat]

theorem jsToLower_at : jsToLower '@' = '@' := by decide

theorem jsToLower_dot : jsToLower '.' = '.' := by decide

theorem emailChar_jsToLower {c : Char} (h : emailChar c = true) :
    emailChar (jsToLower c) = true := by
  unfold jsToLower
  split
  · rename_i hr
    have ht : (Char.ofNat (c.toNat + 32)).toNat = c.toNat + 32 :=
      toNat_ofNat_lt (by omega)
    have h64 : ¬(Char.ofNat (c.toNat + 32) = '@') := by
      intro he
      have h2 := char_eq_iff_toNat.mp he
      rw [ht] at h2
      have h3 : ('@').toNat = 64 := rfl
      omega
    have hsp : jsSpace (Char.ofNat (c.toNat + 32)) = false := by
      unfold jsSpace
      simp only [ht, Bool.or_eq_false_iff, decide_eq_false_iff_not,
        Bool.and_eq_false_iff, decide_eq_true_eq]
      omega
    simp [emailChar, hsp, h64]
  · exact h

theorem jsToLower_idem (c : Char) : jsToLower (jsToLower c) = jsToLower c := by
  by_cases hr : 65 ≤ c.toNat ∧ c.toNat ≤ 90
  · have h1 : jsToLower c = Char.ofNat (c.toNat + 32) := by
      unfold jsToLower; rw [if_pos hr]
    have ht : (Char.ofNat (c.toNat + 32)).toNat = c.toNat + 32 :=
      toNat_ofNat_lt (by omega)
    rw [h1]
    unfold jsToLower
    rw [if_neg]
    intro hcon
    rw [ht] at hcon
    omega
  · have h1 : jsToLower c = c := by unfold jsToLower; rw [if_neg hr]
    rw [h1, h1]

theorem jsSpace_jsToLower {c : Char} (h : jsSpace c = false) :
    jsSpace (jsToLower c) = false := by
  unfold jsToLower
  split
  · rename_i hr
    have ht : (Char.ofNat (c.toNat + 32)).toNat = c.toNat + 32 :=
      toNat_ofNat_lt (by omega)
    unfold jsSpace
    simp only [ht, Bool.or_eq_false_iff, decide_eq_false_iff_not,
      Bool.and_eq_false_iff, decide_eq_true_eq]
    omega
  · exact h

/-! ### normalisation lemmas -/

theorem dropWhile_all_false {p : Char → Bool} {l : List Char}
    (h : ∀ x ∈ l, p x = false) : l.dropWhile p = l := by
  cases l with
  | nil => rfl
  | cons c r =>
    have hc : p c = false := h c (List.mem_cons_self c r)
    simp [List.dropWhile_cons, hc]

theorem jsTrim_no_ws {l : List Char} (h : ∀ x ∈ l, jsSpace x = false) :
    jsTrim l = l := by
  unfold jsTrim
  rw [dropWhile_all_false h,
    dropWhile_all_false (fun x hx => h x (List.mem_reverse.mp hx)),
    List.reverse_reverse]

theorem normalizeEmail_eq_map {l : List Char} (h : ∀ x ∈ l, jsSpace x = false) :
    normalizeEmail l = l.map jsToLower := by
  unfold normalizeEmail
  rw [jsTrim_no_ws h]

theorem normalizeEmail_map_idem {l : List Char} (h : ∀ x ∈ l, jsSpace x = false) :
    normalizeEmail (l.map jsToLower) = l.map jsToLower := by
  have h2 : ∀ x ∈ l.map jsToLower, jsSpace x = false := by
    intro x hx
    obtain ⟨y, hy, rfl⟩ := List.mem_map.mp hx
    exact jsSpace_jsToLower (h y hy)
  rw [normalizeEmail_eq_map h2, List.map_map]
  congr 1
  funext c
  exact jsToLower_idem c

/-! ### parse and encode composition -/

theorem jsDigit_ne_nl {x : Char} (h : jsDigit x = true) : x ≠ '\n' := by
  simp only [jsDigit, Bool.and_eq_true, decide_eq_true_eq] at h
  intro he
  have := char_eq_iff_toNat.mp he
  have h10 : ('\n').toNat = 10 := rfl
  omega

theorem not_space_ne_nl {x : Char} (h : jsSpace x = false) : x ≠ '\n' := by
  intro he
  subst he
  exact absurd h (by decide)

theorem renderEntry_no_nl {n : Nat} {em today : List Char}
    (hem : ∀ x ∈ em, jsSpace x = false) (ht : dateOk today) :
    ∀ x ∈ renderEntry n em today, x ≠ '\n' := by
  intro x hx
  unfold renderEntry at hx
  rcases List.mem_append.mp hx with hxd | hxr
  · exact jsDigit_ne_nl (natChars_digits n x hxd)
  · rcases hxr with _ | ⟨_, _ | ⟨_, hxr2⟩⟩
    · decide
    · decide
    · rcases List.mem_append.mp hxr2 with hxe | hxs
      · exact not_space_ne_nl (hem x hxe)
      · rcases hxs with _ | ⟨_, _ | ⟨_, _ | ⟨_, hxt⟩⟩⟩
        · decide
        · decide
        · decide
        · exact not_space_ne_nl (emailChar_not_space (dateChar_emailChar (ht x hxt)))

theorem parseEmails_append (x y : List Char) :
    parseEmails (x ++ '\n' :: y) = parseEmails x ++ parseEmails y := by
  unfold parseEmails
  rw [splitOnNl_append, List.filterMap_append]

theorem parseEmails_nil : parseEmails [] = [] := rfl

theorem parseEmails_encodeDoc {content today : List Char} {n : Nat} {a b c : List Char}
    (ha : a ≠ []) (haall : ∀ x ∈ a, emailChar x = true)
    (hb : b ≠ []) (hball : ∀ x ∈ b, emailChar x = true)
    (hc : c ≠ []) (hcall : ∀ x ∈ c, emailChar x = true) (ht : dateOk today)
    (hnorm : normalizeEmail (a ++ '@' :: (b ++ '.' :: c)) = a ++ '@' :: (b ++ '.' :: c)) :
    parseEmails (encodeDoc content n (a ++ '@' :: (b ++ '.' :: c)) today) =
      parseEmails (jsTrimEnd content) ++ [a ++ '@' :: (b ++ '.' :: c)] := by
  have hnows : ∀ x ∈ a ++ '@' :: (b ++ '.' :: c), jsSpace x = false := by
    intro x hx
    rcases List.mem_append.mp hx with hxa | hxr
    · exact emailChar_not_space (haall x hxa)
    · rcases hxr with _ | ⟨_, hxr2⟩
      · decide
      · rcases List.mem_append.mp hxr2 with hxb | hxc
        · exact emailChar_not_space (hball x hxb)
        · rcases hxc with _ | ⟨_, hxc2⟩
          · decide
          · exact emailChar_not_space (hcall x hxc2)
  have hRE : decodeLine (renderEntry n (a ++ '@' :: (b ++ '.' :: c)) today) =
      some (a ++ '@' :: (b ++ '.' :: c)) := by
    unfold decodeLine
    rw [lineMatch_renderEntry ha haall hb hball hc hcall ht]
    simp only [Option.map_some']
    rw [hnorm]
  have hsingle : splitOnNl (renderEntry n (a ++ '@' :: (b ++ '.' :: c)) today) =
      [renderEntry n (a ++ '@' :: (b ++ '.' :: c)) today] :=
    splitOnNl_single (renderEntry_no_nl hnows ht)
  unfold encodeDoc
  rw [parseEmails_append]
  congr 1
  have h2 : renderEntry n (a ++ '@' :: (b ++ '.' :: c)) today ++ ['\n'] =
      renderEntry n (a ++ '@' :: (b ++ '.' :: c)) today ++ '\n' :: [] := rfl
  rw [h2, parseEmails_append, parseEmails_nil, List.append_nil]
  unfold parseEmails
  rw [hsingle]
  simp [List.filterMap, hRE]

/-! ### handler step lemmas -/

theorem attemptEval_fetchThrow {em today : List Char} :
    attemptEval em today .fetchThrow = .failed [] := rfl

theorem attemptEval_found_dup {em today : List Char} {f : File} {p : Bool}
    (h : em ∈ parseEmails f.content) :
    attemptEval em today (.fetchOk (some f) p) =
      .terminal (.duplicate (parseEmails f.content).length) [] := by
  simp [attemptEval, h]

theorem attemptEval_found_new {em today : List Char} {f : File} {p : Bool}
    (h : em ∉ parseEmails f.content) :
    attemptEval em today (.fetchOk (some f) p) =
      if p then
        .terminal (.success ((parseEmails f.content).length + 1))
          [(encodeDoc f.content ((parseEmails f.content).length + 1) em today, some f.sha)]
      else
        .failed [(encodeDoc f.content ((parseEmails f.content).length + 1) em today, some f.sha)] := by
  simp [attemptEval, h]

theorem attemptEval_absent {em today : List Char} {p : Bool} :
    attemptEval em today (.fetchOk none p) =
      if p then .terminal (.success 1) [(encodeDoc headerText 1 em today, none)]
      else .failed [(encodeDoc headerText 1 em today, none)] := by
  simp [attemptEval]

theorem submitGo_terminal {em today : List Char} {envs : Nat → AttemptEnv}
    {fuel attempt : Nat} {resp : Response} {ws : List (List Char × Option Nat)}
    (h : attemptEval em today (envs attempt) = .terminal resp ws) :
    submitGo em today envs (fuel + 1) attempt = ⟨1, [], ws, resp⟩ := by
  simp [submitGo, h]

theorem submitGo_failed_last {em today : List Char} {envs : Nat → AttemptEnv}
    {fuel : Nat} {ws : List (List Char × Option Nat)}
    (h : attemptEval em today (envs 2) = .failed ws) :
    submitGo em today envs (fuel + 1) 2 = ⟨1, [], ws, .serverError⟩ := by
  simp [submitGo, h]

theorem submitGo_failed_step {em today : List Char} {envs : Nat → AttemptEnv}
    {fuel attempt : Nat} {ws : List (List Char × Option Nat)}
    (h : attemptEval em today (envs attempt) = .failed ws) (hatt : attempt ≠ 2) :
    submitGo em today envs (fuel + 1) attempt =
      ⟨(submitGo em today envs fuel (attempt + 1)).attempts + 1,
        500 :: (submitGo em today envs fuel (attempt + 1)).waits,
        ws ++ (submitGo em today envs fuel (attempt + 1)).writes,
        (submitGo em today envs fuel (attempt + 1)).response⟩ := by
  simp [submitGo, h, hatt]

theorem handlePost_invalid {body : ReqBody} {today : List Char} {envs : Nat → AttemptEnv}
    (h : truthy (emailOf body) = false ∨ isValidEmailJs (emailOf body) = false) :
    handlePost body today envs = .reply ⟨0, [], [], .invalid⟩ := by
  cases h with
  | inl h => simp [handlePost, h]
  | inr h => simp [handlePost, h]

theorem handlePost_str {s today : List Char} {envs : Nat → AttemptEnv}
    (ht : truthy (.jsStr s) = true) (hv : isValidEmailJs (.jsStr s) = true) :
    handlePost (.field (.jsStr s)) today envs =
      .reply (submit (normalizeEmail s) today envs) := by
  simp [handlePost, emailOf, ht, hv]

theorem truthy_of_ne_nil {s : List Char} (h : s ≠ []) : truthy (.jsStr s) = true := by
  cases s with
  | nil => exact absurd rfl h
  | cons c r => rfl

theorem isValidEmailJs_str (s : List Char) : isValidEmailJs (.jsStr s) = isValidEmail s := rfl

/-! ### case-folding transfer lemmas -/

theorem jsToLower_of_ws {c : Char} (h : jsSpace c = true) : jsToLower c = c := by
  unfold jsToLower
  rw [if_neg]
  simp only [jsSpace, Bool.or_eq_true, decide_eq_true_eq, Bool.and_eq_true] at h
  omega

theorem jsToLower_eq_at {z : Char} (h : jsToLower z = '@') : z = '@' := by
  unfold jsToLower at h
  split at h
  · rename_i hr
    have ht := toNat_ofNat_lt (m := z.toNat + 32) (by omega)
    have h2 := char_eq_iff_toNat.mp h
    rw [ht] at h2
    have h64 : ('@').toNat = 64 := rfl
    omega
  · exact h

theorem jsToLower_eq_dot {z : Char} (h : jsToLower z = '.') : z = '.' := by
  unfold jsToLower at h
  split at h
  · rename_i hr
    have ht := toNat_ofNat_lt (m := z.toNat + 32) (by omega)
    have h2 := char_eq_iff_toNat.mp h
    rw [ht] at h2
    have h46 : ('.').toNat = 46 := rfl
    omega
  · exact h

theorem emailChar_of_toLower {x : Char} (h : emailChar (jsToLower x) = true) :
    emailChar x = true := by
  by_cases hws : jsSpace x = true
  · rw [jsToLower_of_ws hws] at h
    exact h
  · by_cases hat : x = '@'
    · subst hat
      rw [jsToLower_at] at h
      exact h
    · have h1 : jsSpace x = false := by revert hws; cases jsSpace x <;> simp
      simp [emailChar, h1, hat]

theorem caseEq_no_ws {e1 e2 : List Char} (hcase : e1.map jsToLower = e2.map jsToLower)
    (h1 : ∀ x ∈ e1, jsSpace x = false) : ∀ x ∈ e2, jsSpace x = false := by
  intro x hx
  by_cases hws : jsSpace x = true
  · have hmem : jsToLower x ∈ e2.map jsToLower := List.mem_map_of_mem jsToLower hx
    rw [← hcase] at hmem
    obtain ⟨y, hy, hyx⟩ := List.mem_map.mp hmem
    have hx2 : jsToLower x = x := jsToLower_of_ws hws
    have : jsSpace (jsToLower y) = false := jsSpace_jsToLower (h1 y hy)
    rw [hyx, hx2] at this
    rw [this] at hws
    exact absurd hws (by simp)
  · revert hws; cases jsSpace x <;> simp

theorem emailShape_case_transfer {e1 e2 : List Char}
    (h1 : (emailShape e1).isSome) (hcase : e1.map jsToLower = e2.map jsToLower) :
    (emailShape e2).isSome := by
  obtain ⟨a, b, c, hdec, ha, hb, hc, haall, hball, hcall⟩ := emailShape_sound h1
  have hm : e2.map jsToLower =
      a.map jsToLower ++ '@' :: (b.map jsToLower ++ '.' :: c.map jsToLower) := by
    rw [← hcase, hdec]
    simp [jsToLower_at, jsToLower_dot]
  obtain ⟨A2, r2, he2, hA2, hr2⟩ := (List.map_eq_append_iff.mp hm)
  obtain ⟨z, r3, hr3, hz, hr4⟩ := List.map_eq_cons_iff.mp hr2
  obtain ⟨B2, r5, hr5, hB2, hr6⟩ := (List.map_eq_append_iff.mp hr4)
  obtain ⟨z2, C2, hr7, hz2, hC2⟩ := List.map_eq_cons_iff.mp hr6
  have hzat : z = '@' := jsToLower_eq_at hz
  have hz2dot : z2 = '.' := jsToLower_eq_dot hz2
  have hshape : e2 = A2 ++ '@' :: (B2 ++ '.' :: C2) := by
    rw [he2, hr3, hzat, hr5, hr7, hz2dot]
  have hclass : ∀ (u v : List Char), u.map jsToLower = v.map jsToLower →
      (∀ x ∈ v, emailChar x = true) → ∀ x ∈ u, emailChar x = true := by
    intro u v huv hv x hx
    have hmem : jsToLower x ∈ u.map jsToLower := List.mem_map_of_mem jsToLower hx
    rw [huv] at hmem
    obtain ⟨y, hy, hyx⟩ := List.mem_map.mp hmem
    apply emailChar_of_toLower
    rw [← hyx]
    exact emailChar_jsToLower (hv y hy)
  have hlen : ∀ (u v : List Char), u.map jsToLower = v.map jsToLower → v ≠ [] → u ≠ [] := by
    intro u v huv hv hu
    subst hu
    cases v with
    | nil => exact absurd rfl hv
    | cons y t => simp at huv
  rw [hshape]
  exact emailShape_complete (hlen _ _ hA2 ha) (hlen _ _ hB2 hb) (hlen _ _ hC2 hc)
    (hclass _ _ hA2 haall) (hclass _ _ hB2 hball) (hclass _ _ hC2 hcall)

/-! ### retry loop unrolling -/

theorem submitGo_step3 {em today : List Char} {envs : Nat → AttemptEnv}
    {w : List (List Char × Option Nat)}
    (h : attemptEval em today (envs 0) = .failed w) :
    submitGo em today envs 3 0 =
      ⟨(submitGo em today envs 2 1).attempts + 1,
        500 :: (submitGo em today envs 2 1).waits,
        w ++ (submitGo em today envs 2 1).writes,
        (submitGo em today envs 2 1).response⟩ := by
  show submitGo em today envs (2 + 1) 0 = _
  rw [submitGo_failed_step h (by omega)]

theorem submitGo_step2 {em today : List Char} {envs : Nat → AttemptEnv}
    {w : List (List Char × Option Nat)}
    (h : attemptEval em today (envs 1) = .failed w) :
    submitGo em today envs 2 1 =
      ⟨(submitGo em today envs 1 2).attempts + 1,
        500 :: (submitGo em today envs 1 2).waits,
        w ++ (submitGo em today envs 1 2).writes,
        (submitGo em today envs 1 2).response⟩ := by
  show submitGo em today envs (1 + 1) 1 = _
  rw [submitGo_failed_step h (by omega)]

theorem submitGo_last1 {em today : List Char} {envs : Nat → AttemptEnv}
    {w : List (List Char × Option Nat)}
    (h : attemptEval em today (envs 2) = .failed w) :
    submitGo em today envs 1 2 = ⟨1, [], w, .serverError⟩ := by
  show submitGo em today envs (0 + 1) 2 = _
  exact submitGo_failed_last h

theorem submit_three_failures {em today : List Char} {envs : Nat → AttemptEnv}
    {w0 w1 w2 : List (List Char × Option Nat)}
    (h0 : attemptEval em today (envs 0) = .failed w0)
    (h1 : attemptEval em today (envs 1) = .failed w1)
    (h2 : attemptEval em today (envs 2) = .failed w2) :
    submit em today envs = ⟨3, [500, 500], w0 ++ (w1 ++ w2), .serverError⟩ := by
  show submitGo em today envs 3 0 = _
  rw [submitGo_step3 h0, submitGo_step2 h1, submitGo_last1 h2]

theorem submit_first_terminal {em today : List Char} {envs : Nat → AttemptEnv}
    {resp : Response} {ws : List (List Char × Option Nat)}
    (h : attemptEval em today (envs 0) = .terminal resp ws) :
    submit em today envs = ⟨1, [], ws, resp⟩ := by
  show submitGo em today envs (2 + 1) 0 = _
  exact submitGo_terminal h

theorem attemptEval_success_write {em today : List Char} {env : AttemptEnv} {k : Nat}
    {w : List Char} {sh : Option Nat}
    (h : attemptEval em today env = .terminal (.success k) [(w, sh)]) :
    ∃ C0 n0, w = encodeDoc C0 n0 em today := by
  cases env with
  | fetchThrow => rw [attemptEval_fetchThrow] at h; exact absurd h (by simp)
  | fetchOk file p =>
    cases file with
    | none =>
      rw [attemptEval_absent] at h
      split at h
      · injection h with h1 h2
        simp only [List.cons.injEq, Prod.mk.injEq] at h2
        exact ⟨headerText, 1, h2.1.1.symm⟩
      · exact absurd h (by simp)
    | some f =>
      by_cases hdup : em ∈ parseEmails f.content
      · rw [attemptEval_found_dup hdup] at h
        injection h with h1 _
        simp at h1
      · rw [attemptEval_found_new hdup] at h
        split at h
        · injection h with h1 h2
          simp only [List.cons.injEq, Prod.mk.injEq] at h2
          exact ⟨f.content, (parseEmails f.content).length + 1, h2.1.1.symm⟩
        · exact absurd h (by simp)

/-! ## Claims -/

/-- C1: for every POST with a valid email, if every attempt of the retry
loop fails with a store error (thrown fetch or rejected conditional write),
the handler performs exactly 3 attempts separated by exactly 2 fixed 500ms
backoff waits, terminates with WriteFailed surfaced as a 500 response, and
never makes a fourth attempt (the trace reports exactly 3 attempts even
though the environment is defined for every attempt index). -/
theorem c1_writefailed_three_attempts (e today : List Char) (envs : Nat → AttemptEnv)
    (hv : isValidEmail e = true)
    (hfail : ∀ i, i < 3 → attemptThrows (normalizeEmail e) today (envs i)) :
    ∃ ws, handlePost (.field (.jsStr e)) today envs =
      .reply ⟨3, [500, 500], ws, .serverError⟩ ∧ statusOf .serverError = 500 := by
  have hsome : (emailShape e).isSome := by
    unfold isValidEmail at hv
    rw [Bool.and_eq_true] at hv
    exact hv.1
  have hne : e ≠ [] := emailShape_ne_nil hsome
  obtain ⟨w0, h0⟩ := hfail 0 (by omega)
  obtain ⟨w1, h1⟩ := hfail 1 (by omega)
  obtain ⟨w2, h2⟩ := hfail 2 (by omega)
  refine ⟨w0 ++ (w1 ++ w2), ?_, rfl⟩
  rw [handlePost_str (truthy_of_ne_nil hne) (by rw [isValidEmailJs_str]; exact hv)]
  rw [submit_three_failures h0 h1 h2]

/-- Witness for C1 at a concrete input: a valid email with a store whose
fetch throws on every attempt. -/
theorem c1_witness :
    ∃ ws, handlePost (.field (.jsStr (toChars "a@b.co"))) (toChars "2024-01-15")
        (fun _ => .fetchThrow) =
      .reply ⟨3, [500, 500], ws, .serverError⟩ ∧ statusOf .serverError = 500 :=
  c1_writefailed_three_attempts (toChars "a@b.co") (toChars "2024-01-15")
    (fun _ => .fetchThrow) (by decide) (fun i _ => ⟨[], rfl⟩)

/-- C2 counterexample: the round-trip claim fails as stated.  The document
`1. a@b.c — ` (a decodable entry whose date is empty, leaving only a
trailing space after the separator) decodes to one entry, but `encode`
right-trims that trailing space, which destroys the required whitespace
after the em-dash: re-decoding no longer returns the original entry, only
the new one.  The appended email is a valid normalized email, so the
claim's own premises hold. -/
theorem c2_counterexample :
    parseEmails (toChars "1. a@b.c — ") = [toChars "a@b.c"] ∧
    isValidEmail (toChars "n@x.y") = true ∧
    normalizeEmail (toChars "n@x.y") = toChars "n@x.y" ∧
    parseEmails (encodeDoc (toChars "1. a@b.c — ")
        ((parseEmails (toChars "1. a@b.c — ")).length + 1)
        (toChars "n@x.y") (toChars "2024-01-15")) ≠
      parseEmails (toChars "1. a@b.c — ") ++ [toChars "n@x.y"] := by
  refine ⟨by decide, by decide, by decide, by decide⟩

/-- C2 amended: for every raw document text whose right-trim decodes to the
same entries as the text itself, and every valid normalized new email and
date-shaped timestamp, encoding the new entry (with sequence number =
decoded length + 1) and re-decoding yields exactly the original entries
followed by exactly one new entry carrying the new email. -/
theorem c2_roundtrip_amended (content e today : List Char)
    (hv : isValidEmail e = true) (hnorm : normalizeEmail e = e) (ht : dateOk today)
    (htrim : parseEmails (jsTrimEnd content) = parseEmails content) :
    parseEmails (encodeDoc content ((parseEmails content).length + 1) e today) =
      parseEmails content ++ [e] := by
  have hsome : (emailShape e).isSome := by
    unfold isValidEmail at hv
    rw [Bool.and_eq_true] at hv
    exact hv.1
  obtain ⟨a, b, c, hdec, ha, hb, hc, haall, hball, hcall⟩ := emailShape_sound hsome
  subst hdec
  rw [parseEmails_encodeDoc ha haall hb hball hc hcall ht hnorm, htrim]

/-- Witness for C2 amended at a concrete document and email. -/
theorem c2_witness :
    parseEmails (encodeDoc (toChars "1. a@b.c — x")
        ((parseEmails (toChars "1. a@b.c — x")).length + 1)
        (toChars "n@x.y") (toChars "2024-01-15")) =
      parseEmails (toChars "1. a@b.c — x") ++ [toChars "n@x.y"] :=
  c2_roundtrip_amended (toChars "1. a@b.c — x") (toChars "n@x.y")
    (toChars "2024-01-15") (by decide) (by decide) (by unfold dateOk; decide) (by decide)

/-- C3 counterexample: a second submission that differs from the stored
email only by surrounding whitespace normalizes to the same key, yet it is
rejected with InvalidInput (400) before normalization ever happens — not
with DuplicateEmail — even when the store already contains the colliding
email. -/
theorem c3_counterexample :
    normalizeEmail (toChars " a@b.com ") = toChars "a@b.com" ∧
    handlePost (.field (.jsStr (toChars " a@b.com "))) (toChars "2024-01-15")
        (fun _ => .fetchOk (some ⟨toChars "1. a@b.com — 2024-01-15\n", 3⟩) true) =
      .reply ⟨0, [], [], .invalid⟩ ∧
    statusOf .invalid = 400 := by
  refine ⟨by decide, by decide, rfl⟩

/-- C3 amended: for every pair of submit calls whose email strings differ
only in letter case (no surrounding whitespace), where the first is a valid
email whose first attempt succeeds and writes document `w`, every later
submit of the case-variant email that fetches `w` terminates with
DuplicateEmail — never with InvalidInput and never with a second success. -/
theorem c3_duplicate_case_amended
    (e1 e2 today : List Char) (envs1 envs2 : Nat → AttemptEnv)
    (k : Nat) (w : List Char) (sh : Option Nat) (sha2 : Nat) (p2 : Bool)
    (hv1 : isValidEmail e1 = true)
    (hcase : e1.map jsToLower = e2.map jsToLower)
    (hlen2 : e2.length ≤ 254)
    (ht : dateOk today)
    (hfirst : attemptEval (normalizeEmail e1) today (envs1 0) =
      .terminal (.success k) [(w, sh)])
    (henv2 : envs2 0 = .fetchOk (some ⟨w, sha2⟩) p2) :
    handlePost (.field (.jsStr e1)) today envs1 =
      .reply ⟨1, [], [(w, sh)], .success k⟩ ∧
    ∃ cnt, handlePost (.field (.jsStr e2)) today envs2 =
      .reply ⟨1, [], [], .duplicate cnt⟩ ∧ statusOf (.duplicate cnt) = 409 := by
  have hsome1 : (emailShape e1).isSome := by
    unfold isValidEmail at hv1
    rw [Bool.and_eq_true] at hv1
    exact hv1.1
  have hne1 : e1 ≠ [] := emailShape_ne_nil hsome1
  have hnows1 : ∀ x ∈ e1, jsSpace x = false := emailShape_no_ws hsome1
  obtain ⟨a, b, c, hdec, ha, hb, hc, haall, hball, hcall⟩ := emailShape_sound hsome1
  -- the normalized key shared by both calls
  have hnorm1 : normalizeEmail e1 = e1.map jsToLower := normalizeEmail_eq_map hnows1
  have hnorm2 : normalizeEmail e2 = e1.map jsToLower := by
    rw [normalizeEmail_eq_map (caseEq_no_ws hcase hnows1), ← hcase]
  -- decomposition of the normalized key
  have hmapdec : e1.map jsToLower =
      a.map jsToLower ++ '@' :: (b.map jsToLower ++ '.' :: c.map jsToLower) := by
    rw [hdec]
    simp [jsToLower_at, jsToLower_dot]
  have hmne : ∀ (u : List Char), u ≠ [] → u.map jsToLower ≠ [] := by
    intro u hu hmap
    exact hu (List.map_eq_nil_iff.mp hmap)
  have hmall : ∀ (u : List Char), (∀ x ∈ u, emailChar x = true) →
      ∀ x ∈ u.map jsToLower, emailChar x = true := by
    intro u hu x hx
    obtain ⟨y, hy, rfl⟩ := List.mem_map.mp hx
    exact emailChar_jsToLower (hu y hy)
  have hnormkey : normalizeEmail (e1.map jsToLower) = e1.map jsToLower :=
    normalizeEmail_map_idem hnows1
  -- the first call's write contains the normalized key
  obtain ⟨C0, n0, hw⟩ := attemptEval_success_write hfirst
  have hmem : normalizeEmail e1 ∈ parseEmails w := by
    rw [hw, hnorm1, hmapdec]
    rw [parseEmails_encodeDoc (hmne a ha) (hmall a haall) (hmne b hb) (hmall b hball)
      (hmne c hc) (hmall c hcall) ht (hmapdec ▸ hnormkey)]
    exact List.mem_append.mpr (Or.inr (List.mem_singleton.mpr rfl))
  constructor
  · rw [handlePost_str (truthy_of_ne_nil hne1) (by rw [isValidEmailJs_str]; exact hv1)]
    rw [submit_first_terminal hfirst]
  · have hne2 : e2 ≠ [] := by
      intro hnil
      rw [hnil] at hcase
      simp only [List.map_nil] at hcase
      exact hne1 (List.map_eq_nil_iff.mp hcase)
    have hv2 : isValidEmail e2 = true := by
      unfold isValidEmail
      rw [Bool.and_eq_true]
      exact ⟨emailShape_case_transfer hsome1 hcase, by simpa using hlen2⟩
    refine ⟨(parseEmails w).length, ?_, rfl⟩
    rw [handlePost_str (truthy_of_ne_nil hne2) (by rw [isValidEmailJs_str]; exact hv2)]
    have hdup2 : normalizeEmail e2 ∈ parseEmails w := by rw [hnorm2, ← hnorm1]; exact hmem
    rw [submit_first_terminal (by rw [henv2]; exact attemptEval_found_dup hdup2)]

/-- Witness for C3 amended: `A@B.com` is submitted into an empty store and
succeeds; a later `a@B.COM` against the written document gets 409. -/
theorem c3_witness :
    handlePost (.field (.jsStr (toChars "A@B.com"))) (toChars "2024-01-15")
        (fun _ => .fetchOk none true) =
      .reply ⟨1, [],
        [(toChars "# Waitlist Signups\n1. a@b.com — 2024-01-15\n", none)], .success 1⟩ ∧
    ∃ cnt, handlePost (.field (.jsStr (toChars "a@B.COM"))) (toChars "2024-01-15")
        (fun _ => .fetchOk
          (some ⟨toChars "# Waitlist Signups\n1. a@b.com — 2024-01-15\n", 7⟩) true) =
      .reply ⟨1, [], [], .duplicate cnt⟩ ∧ statusOf (.duplicate cnt) = 409 :=
  c3_duplicate_case_amended (toChars "A@B.com") (toChars "a@B.COM")
    (toChars "2024-01-15") (fun _ => .fetchOk none true)
    (fun _ => .fetchOk
      (some ⟨toChars "# Waitlist Signups\n1. a@b.com — 2024-01-15\n", 7⟩) true)
    1 (toChars "# Waitlist Signups\n1. a@b.com — 2024-01-15\n") none 7 true
    (by decide) (by decide) (by decide) (by unfold dateOk; decide) (by decide) rfl

/-- C4: decode is a total function and no line that fails to match the
entry regex contributes an element to the result: the decoded list is
exactly the one obtained from the matching lines alone. -/
theorem c4_decode_skips_unmatched (s : List Char) :
    parseEmails s =
      ((splitOnNl s).filter (fun l => (lineMatch l).isSome)).filterMap decodeLine := by
  unfold parseEmails
  induction splitOnNl s with
  | nil => rfl
  | cons h t ih =>
    cases hm : lineMatch h with
    | none =>
      simp only [List.filterMap_cons, List.filter_cons, decodeLine, hm, Option.map_none',
        Option.isSome_none, Bool.false_eq_true, if_false]
      exact ih
    | some e =>
      simp only [List.filterMap_cons, List.filter_cons, decodeLine, hm, Option.map_some',
        Option.isSome_some, if_true]
      rw [ih]

/-- C5 counterexample: the line `1. a@b.c — ` is decoded as an entry (its
email is captured) although it carries no date at all — the separator is
followed only by whitespace, which the claimed shape (ending in a date)
does not allow. -/
theorem c5_counterexample :
    decodeLine (toChars "1. a@b.c — ") = some (toChars "a@b.c") ∧
      ¬ specEntryShape (toChars "1. a@b.c — ") := by
  constructor
  · decide
  · intro hshape
    obtain ⟨ds, s1, A, B, C, s2, s3, d, hdec, hds, hs1, hA, hB, hC, hs2, hs3, hd⟩ := hshape
    have hlen := congrArg List.length hdec
    simp only [List.length_append, List.length_cons] at hlen
    have l1 := List.length_pos.mpr hds.1
    have l2 := List.length_pos.mpr hs1.1
    have l3 := List.length_pos.mpr hA.1
    have l4 := List.length_pos.mpr hB.1
    have l5 := List.length_pos.mpr hC.1
    have l6 := List.length_pos.mpr hs2.1
    have l7 := List.length_pos.mpr hs3.1
    have l8 := List.length_pos.mpr hd
    have hlen0 : (toChars "1. a@b.c — ").length = 11 := by decide
    omega

/-- C5 amended: a line is decoded as an entry iff it has the shape
digits, dot, whitespace, liberal email (`.+@.+\..+`), whitespace, em-dash,
whitespace — the date after the separator's whitespace is optional and
unconstrained; and every decoded email is the matched capture trimmed and
lowercased. -/
theorem c5_line_shape_amended (l : List Char) :
    ((lineMatch l).isSome ↔ matchesEntryShape l) ∧
      (∀ e, decodeLine l = some e →
        ∃ raw, lineMatch l = some raw ∧ e = normalizeEmail raw) := by
  constructor
  · constructor
    · intro h
      obtain ⟨e, he⟩ := Option.isSome_iff_exists.mp h
      exact lineMatch_sound he
    · exact lineMatch_complete
  · intro e he
    unfold decodeLine at he
    cases hm : lineMatch l with
    | none => rw [hm] at he; simp at he
    | some raw =>
      rw [hm] at he
      simp only [Option.map_some'] at he
      exact ⟨raw, rfl, (Option.some.inj he).symm⟩

/-- Witness for C5 amended at a concrete entry line. -/
theorem c5_witness :
    matchesEntryShape (toChars "1. a@b.c — 2024-01-15") ∧
      ∃ raw, lineMatch (toChars "1. a@b.c — 2024-01-15") = some raw ∧
        toChars "a@b.c" = normalizeEmail raw := by
  constructor
  · exact (c5_line_shape_amended (toChars "1. a@b.c — 2024-01-15")).1.mp (by decide)
  · exact (c5_line_shape_amended (toChars "1. a@b.c — 2024-01-15")).2
      (toChars "a@b.c") (by decide)

/-- C6: every email input that is empty, fails the syntactic pattern, or
exceeds 254 characters is rejected with InvalidInput mapped to 400, with
zero loop iterations and zero store writes before the rejection. -/
theorem c6_invalid_rejected_before_store (s today : List Char) (envs : Nat → AttemptEnv)
    (h : s = [] ∨ isValidEmail s = false ∨ 254 < s.length) :
    handlePost (.field (.jsStr s)) today envs = .reply ⟨0, [], [], .invalid⟩ ∧
      statusOf .invalid = 400 := by
  refine ⟨?_, rfl⟩
  apply handlePost_invalid
  rcases h with h | h | h
  · left
    subst h
    rfl
  · right
    show isValidEmailJs (.jsStr s) = false
    rw [isValidEmailJs_str]
    exact h
  · right
    show isValidEmailJs (.jsStr s) = false
    rw [isValidEmailJs_str]
    have hc : ¬(s.length ≤ 254) := by omega
    simp [isValidEmail, hc]

/-- Witness for C6 at a concrete invalid email. -/
theorem c6_witness :
    handlePost (.field (.jsStr (toChars "notanemail"))) (toChars "2024-01-15")
        (fun _ => .fetchThrow) = .reply ⟨0, [], [], .invalid⟩ ∧
      statusOf .invalid = 400 :=
  c6_invalid_rejected_before_store (toChars "notanemail") (toChars "2024-01-15")
    (fun _ => .fetchThrow) (Or.inr (Or.inl (by decide)))

/-- C7 counterexample: on an absent document the created file is the title
line immediately followed by the entry line — `trimEnd` removes the blank
line of the fresh header, so the written document differs from the claimed
header-plus-blank-line layout. -/
theorem c7_counterexample :
    handlePost (.field (.jsStr (toChars "n@x.y"))) (toChars "2024-01-15")
        (fun _ => .fetchOk none true) =
      .reply ⟨1, [],
        [(toChars "# Waitlist Signups\n1. n@x.y — 2024-01-15\n", none)], .success 1⟩ ∧
    toChars "# Waitlist Signups\n1. n@x.y — 2024-01-15\n" ≠
      toChars "# Waitlist Signups\n\n1. n@x.y — 2024-01-15\n" := by
  refine ⟨by decide, by decide⟩

/-- C7 amended: when the remote document is absent, a successful submit of
a valid normalized email creates a document consisting of the title line
`# Waitlist Signups` immediately followed by the entry line
`1. <email> — <today>` (the header's blank line is removed by the
right-trim in encode), performs the write as a create (no version token),
and returns count 1 with a 200 status. -/
theorem c7_create_amended (e today : List Char) (envs : Nat → AttemptEnv)
    (hv : isValidEmail e = true) (hnorm : normalizeEmail e = e)
    (henv : envs 0 = .fetchOk none true) :
    handlePost (.field (.jsStr e)) today envs =
      .reply ⟨1, [],
        [(toChars "# Waitlist Signups" ++ '\n' :: (renderEntry 1 e today ++ ['\n']), none)],
        .success 1⟩ ∧ statusOf (.success 1) = 200 := by
  have hsome : (emailShape e).isSome := by
    unfold isValidEmail at hv
    rw [Bool.and_eq_true] at hv
    exact hv.1
  have hne : e ≠ [] := emailShape_ne_nil hsome
  have hhead : jsTrimEnd headerText = toChars "# Waitlist Signups" := by decide
  have henc : encodeDoc headerText 1 e today =
      toChars "# Waitlist Signups" ++ '\n' :: (renderEntry 1 e today ++ ['\n']) := by
    unfold encodeDoc
    rw [hhead]
  refine ⟨?_, rfl⟩
  rw [handlePost_str (truthy_of_ne_nil hne) (by rw [isValidEmailJs_str]; exact hv)]
  have hstep : attemptEval (normalizeEmail e) today (envs 0) =
      .terminal (.success 1) [(encodeDoc headerText 1 e today, none)] := by
    rw [henv, attemptEval_absent, if_pos rfl, hnorm]
  rw [submit_first_terminal hstep, henc]

/-- Witness for C7 amended at a concrete email and date. -/
theorem c7_witness :
    handlePost (.field (.jsStr (toChars "new@x.com"))) (toChars "2024-01-15")
        (fun _ => .fetchOk none true) =
      .reply ⟨1, [],
        [(toChars "# Waitlist Signups" ++ '\n' ::
          (renderEntry 1 (toChars "new@x.com") (toChars "2024-01-15") ++ ['\n']), none)],
        .success 1⟩ ∧ statusOf (.success 1) = 200 :=
  c7_create_amended (toChars "new@x.com") (toChars "2024-01-15")
    (fun _ => .fetchOk none true) (by decide) (by decide) rfl

/-- C8: every GET returns status 200; the count is 0 when the document is
absent or the fetch fails for any reason, and otherwise it is the number of
decoded entries; no store failure surfaces as a non-200 response. -/
theorem c8_getcount_degrades :
    handleGet .fetchFail = (200, 0) ∧ handleGet .absent = (200, 0) ∧
      (∀ f : File, handleGet (.found f) = (200, (parseEmails f.content).length)) ∧
      (∀ o : FetchOutcome, (handleGet o).1 = 200) := by
  refine ⟨rfl, rfl, fun f => rfl, fun o => ?_⟩
  cases o <;> rfl

/-- C9: whenever an attempt of the retry loop (at any attempt index, with
any fuel remaining) fetches a document that already contains the normalized
email, the loop terminates immediately with the 409 DuplicateEmail response
carrying the current count, and that attempt issues no write at all. -/
theorem c9_duplicate_no_write (em today : List Char) (envs : Nat → AttemptEnv)
    (fuel attempt : Nat) (f : File) (p : Bool)
    (henv : envs attempt = .fetchOk (some f) p)
    (hdup : em ∈ parseEmails f.content) :
    submitGo em today envs (fuel + 1) attempt =
      ⟨1, [], [], .duplicate (parseEmails f.content).length⟩ ∧
    statusOf (.duplicate (parseEmails f.content).length) = 409 :=
  ⟨submitGo_terminal (by rw [henv]; exact attemptEval_found_dup hdup), rfl⟩

/-- Witness for C9 at a concrete duplicate submission. -/
theorem c9_witness :
    submitGo (toChars "a@b.c") (toChars "2024-01-15")
        (fun _ => .fetchOk (some ⟨toChars "1. a@b.c — 2024-01-15\n", 5⟩) true) 3 0 =
      ⟨1, [], [],
        .duplicate (parseEmails (toChars "1. a@b.c — 2024-01-15\n")).length⟩ ∧
    statusOf (.duplicate (parseEmails (toChars "1. a@b.c — 2024-01-15\n")).length) = 409 :=
  c9_duplicate_no_write (toChars "a@b.c") (toChars "2024-01-15")
    (fun _ => .fetchOk (some ⟨toChars "1. a@b.c — 2024-01-15\n", 5⟩) true) 2 0
    ⟨toChars "1. a@b.c — 2024-01-15\n", 5⟩ true rfl (by decide)

/-- C10 counterexample: a body whose `email` is the one-element array
`["a@b.co"]` is a non-string value, yet the handler throws before the retry
loop: the array coerces to the string `a@b.co` under `RegExp.test` and has
`.length` 1, so validation passes, and `email.trim()` then raises a
TypeError. -/
theorem c10_counterexample :
    handlePost (.field (.jsArr [toChars "a@b.co"])) (toChars "2024-01-15")
      (fun _ => .fetchThrow) = .thrown := by
  decide

/-- C10 amended: for every POST body whose `email` is absent (missing or
null body, or no `email` field), falsy, or fails validation — including
every non-string value failing validation — the handler does not throw: it
responds 400 with zero loop iterations and zero writes.  A non-string value
that passes validation after string coercion (such as a one-element array
holding a valid email) instead throws before the loop. -/
theorem c10_body_safety_amended (body : ReqBody) (today : List Char)
    (envs : Nat → AttemptEnv)
    (h : truthy (emailOf body) = false ∨ isValidEmailJs (emailOf body) = false) :
    handlePost body today envs = .reply ⟨0, [], [], .invalid⟩ ∧
      statusOf .invalid = 400 :=
  ⟨handlePost_invalid h, rfl⟩

/-- Witness for C10 amended: a missing body responds 400. -/
theorem c10_witness :
    handlePost .missing (toChars "2024-01-15") (fun _ => .fetchThrow) =
      .reply ⟨0, [], [], .invalid⟩ ∧ statusOf .invalid = 400 :=
  c10_body_safety_amended .missing (toChars "2024-01-15") (fun _ => .fetchThrow)
    (Or.inl rfl)

end Waitlist
